import Mathlib

/-!
Verification development for the lbry authenticated request dispatcher.

The definitions below are a shallow embedding of the two source files that
carry the real logic:

* `lbrynet/core/utils.py` — the older argument binder `check_params`
  (embedded as `Utils.check_params`) and the string coercion `guess_type`;
* `lbrynet/lbrynet_daemon/auth/server.py` — the dispatcher
  `AuthJSONRPCServer._render` with its own binder `_check_params`
  (embedded as `Server.check_params`), the JSON-RPC error tables, the
  method-resolution gate `_verify_method_is_callable`, and the
  queued-method lock handling (embedded as an event-step model).

Python `dict`s are embedded as association lists, Python numbers as `ℤ`/`ℚ`,
and in-place mutation of caller-supplied containers is made explicit by
returning the final contents of those containers.
-/

namespace LbrySpec

/-- Wire-level Python values handled by the dispatcher: strings, ints,
floats (embedded as rationals), booleans, `None`, lists and string-keyed
dicts. -/
inductive PyVal where
  | str (s : String)
  | int (n : ℤ)
  | float (q : ℚ)
  | bool (b : Bool)
  | none
  | list (elems : List PyVal)
  | dict (entries : List (String × PyVal))

/-- A Python dict with string keys, embedded as an association list. -/
abbrev PyDict := List (String × PyVal)

/-- Membership test `k in d` on a Python dict. -/
def dcontains (k : String) (d : PyDict) : Bool :=
  d.any (fun p => p.1 == k)

/-- Lookup `d[k]` on a Python dict (first matching entry). -/
def dlookup (k : String) (d : PyDict) : Option PyVal :=
  (d.find? (fun p => p.1 == k)).map Prod.snd

/-- Key removal, the effect of `d.pop(k)` on the dict itself. -/
def derase (k : String) (d : PyDict) : PyDict :=
  d.filter (fun p => p.1 != k)

/-- Assignment `d[k] = v`. -/
def dinsert (k : String) (v : PyVal) (d : PyDict) : PyDict :=
  if dcontains k d then d.map (fun p => if p.1 == k then (p.1, v) else p)
  else d ++ [(k, v)]

/-- The effect of `base.update(upd)`. -/
def dupdate (base upd : PyDict) : PyDict :=
  upd.foldl (fun acc p => dinsert p.1 p.2 acc) base

/-- Whitespace characters stripped by Python `int()` / `float()` on strings. -/
def pySpace (c : Char) : Bool :=
  c == ' ' || c == '\t' || c == '\n' || c == '\r' || c.toNat == 11 || c.toNat == 12

/-- Strip leading and trailing whitespace from a character list. -/
def stripWs (l : List Char) : List Char :=
  ((l.dropWhile pySpace).reverse.dropWhile pySpace).reverse

/-- Numeric value of a list of decimal digits. -/
def digitsVal (l : List Char) : ℕ :=
  l.foldl (fun a c => 10 * a + (c.toNat - 48)) 0

/-- Optional leading sign; returns (isNegative, rest). -/
def parseSign : List Char → Bool × List Char
  | '+' :: cs => (false, cs)
  | '-' :: cs => (true, cs)
  | cs => (false, cs)

/-- Python 2 `int(s)` on a string: optional surrounding whitespace, optional
sign, one or more decimal digits. -/
def pyParseInt (s : String) : Option ℤ :=
  let l := stripWs s.toList
  let p := parseSign l
  if p.2 ≠ [] ∧ p.2.all Char.isDigit then
    some (if p.1 then -(digitsVal p.2 : ℤ) else (digitsVal p.2 : ℤ))
  else Option.none

/-- Split a character list at the first exponent marker `e`/`E`. -/
def breakOnExp : List Char → List Char × Option (List Char)
  | [] => ([], Option.none)
  | c :: cs =>
    if c == 'e' || c == 'E' then ([], some cs)
    else
      let r := breakOnExp cs
      (c :: r.1, r.2)

/-- Parse an unsigned decimal mantissa `digits [. digits]` (at least one digit
required overall) as a rational. -/
def parseMant (l : List Char) : Option ℚ :=
  let ip := l.takeWhile Char.isDigit
  match l.dropWhile Char.isDigit with
  | [] => if ip ≠ [] then some (digitsVal ip : ℚ) else Option.none
  | '.' :: fp =>
    if fp.all Char.isDigit ∧ (ip ≠ [] ∨ fp ≠ []) then
      some ((digitsVal ip : ℚ) + (digitsVal fp : ℚ) / (10 : ℚ) ^ fp.length)
    else Option.none
  | _ => Option.none

/-- Parse the optional exponent part (after `e`/`E`): optional sign then one
or more digits; absent exponent means `0`. -/
def parseExpPart : Option (List Char) → Option ℤ
  | Option.none => some 0
  | some l =>
    let p := parseSign l
    if p.2 ≠ [] ∧ p.2.all Char.isDigit then
      some (if p.1 then -(digitsVal p.2 : ℤ) else (digitsVal p.2 : ℤ))
    else Option.none

/-- Python 2 `float(s)` on finite decimal literals: optional surrounding
whitespace, optional sign, mantissa with optional fraction, optional
exponent.  (`guess_type` only applies it to strings containing a `.`, so the
`inf`/`nan` word forms, which contain no dot, are never reached and are not
modelled.) -/
def pyParseFloat (s : String) : Option ℚ :=
  let l := stripWs s.toList
  let p := parseSign l
  let m := breakOnExp p.2
  match parseMant m.1, parseExpPart m.2 with
  | some q, some e => some ((if p.1 then -q else q) * (10 : ℚ) ^ e)
  | _, _ => Option.none

/-- The Python test `'.' in x` on a string. -/
def hasDot (s : String) : Bool :=
  s.toList.any (fun c => c == '.')

/-- Embedding of `utils.guess_type`: coerce selected string literals to
booleans / `None`, then strings containing a dot through float parsing and
the rest through int parsing, keeping the original string on parse failure;
non-strings are returned unchanged. -/
def guess_type (x : PyVal) : PyVal :=
  match x with
  | .str s =>
    if s = "true" ∨ s = "True" ∨ s = "TRUE" then .bool true
    else if s = "false" ∨ s = "False" ∨ s = "FALSE" then .bool false
    else if s = "none" ∨ s = "None" ∨ s = "null" ∨ s = "NULL" ∨ s = "NONE" then .none
    else if hasDot s then
      match pyParseFloat s with
      | some q => .float q
      | Option.none => .str s
    else
      match pyParseInt s with
      | some n => .int n
      | Option.none => .str s
  | v => v

/-- Embedding of the `inspect.getargspec` data for a registered procedure:
declared parameter names (with any leading `self` already dropped, as both
binders do via `start_pos`), the default values for the trailing parameters,
and the optional `*args` / `**kwargs` collector names. -/
structure ArgSpec where
  args : List String
  defaults : List PyVal
  varargs : Option String
  keywords : Option String

/-- The binding failures raised by the two binders, one constructor per
`raise` site (argument payloads mirror the data interpolated into the
Python exception messages). -/
inductive BindErr where
  | duplicateArgument (name : String)
  | tooManyArguments
  | missingRequired (names : List String)
  | extraneousParams (remaining : PyDict)
  | tooManyArgs (remaining : List PyVal)
  | missingArg (name : String)
  | tooManyKwargs (remaining : PyDict)
  | typeError

/-- Python `tuple(v)`: lists yield their elements, strings their characters,
dicts their keys; other values are not iterable (`TypeError`). -/
def asTuple : PyVal → Except BindErr (List PyVal)
  | .list l => .ok l
  | .str s => .ok (s.toList.map (fun c => PyVal.str (String.mk [c])))
  | .dict d => .ok (d.map (fun p => PyVal.str p.1))
  | _ => .error .typeError

/-- A value used as the right-hand side of `dict.update` must be a dict. -/
def asDict : PyVal → Except BindErr PyDict
  | .dict d => .ok d
  | _ => .error .typeError

/-- The `defaults` pairing in `AuthJSONRPCServer._check_params`:
`zip(arg_names[-default_cnt:], argspec.defaults)` (empty when there are no
defaults). -/
def Server.defaultsOf (spec : ArgSpec) : List (String × PyVal) :=
  (spec.args.drop (spec.args.length - spec.defaults.length)).zip spec.defaults

/-- The first loop of `AuthJSONRPCServer._check_params` over `args_list`
(`i` is the running index): a positional value whose parameter name is also
present in `args_dict` raises the duplicate-argument error before the value
is consumed; a value beyond the declared names raises "Too many arguments
given" unless the signature has a `*args` collector; otherwise the value is
appended to `args`. -/
def Server.posLoop (argNames : List String) (hasVarargs : Bool) (argsDict : PyDict) :
    List PyVal → ℕ → Except BindErr (List PyVal)
  | [], _ => .ok []
  | arg :: rest, i =>
    if i < argNames.length then
      if dcontains (argNames.getD i "") argsDict then
        .error (.duplicateArgument (argNames.getD i ""))
      else
        match Server.posLoop argNames hasVarargs argsDict rest (i + 1) with
        | .ok t => .ok (arg :: t)
        | .error e => .error e
    else if hasVarargs then
      match Server.posLoop argNames hasVarargs argsDict rest (i + 1) with
      | .ok t => .ok (arg :: t)
      | .error e => .error e
    else .error .tooManyArguments

/-- The second loop of `AuthJSONRPCServer._check_params` over `arg_names`:
when `len(args) + len(kwargs) == i`, the name is bound from `args_dict`
(popping it) or from its declared default into `kwargs`. -/
def Server.nameLoop (defaults : List (String × PyVal)) (argsLen : ℕ) :
    List String → ℕ → PyDict → PyDict → PyDict × PyDict
  | [], _, kwargs, argsDict => (kwargs, argsDict)
  | req :: rest, i, kwargs, argsDict =>
    if argsLen + kwargs.length = i then
      if dcontains req argsDict then
        Server.nameLoop defaults argsLen rest (i + 1)
          (kwargs ++ [(req, (dlookup req argsDict).getD PyVal.none)]) (derase req argsDict)
      else
        match List.lookup req defaults with
        | some v => Server.nameLoop defaults argsLen rest (i + 1) (kwargs ++ [(req, v)]) argsDict
        | Option.none => Server.nameLoop defaults argsLen rest (i + 1) kwargs argsDict
    else Server.nameLoop defaults argsLen rest (i + 1) kwargs argsDict

/-- The `*args`-from-dict step of `AuthJSONRPCServer._check_params`: if the
signature has a `*args` collector whose name is a key of the remaining
`args_dict`, its (iterable) value is popped and appended to `args`. -/
def Server.varargsStep (spec : ArgSpec) (args : List PyVal) (argsDict : PyDict) :
    Except BindErr (List PyVal × PyDict) :=
  match spec.varargs with
  | some v =>
    if dcontains v argsDict then
      match asTuple ((dlookup v argsDict).getD PyVal.none) with
      | .ok extra => .ok (args ++ extra, derase v argsDict)
      | .error e => .error e
    else .ok (args, argsDict)
  | Option.none => .ok (args, argsDict)

/-- The `**kwargs`-from-dict step of `AuthJSONRPCServer._check_params`: if
the signature has a `**kwargs` collector whose name is a key of the
remaining `args_dict`, its (dict) value is popped and merged into `kwargs`. -/
def Server.keywordsStep (spec : ArgSpec) (kwargs : PyDict) (argsDict : PyDict) :
    Except BindErr (PyDict × PyDict) :=
  match spec.keywords with
  | some k =>
    if dcontains k argsDict then
      match asDict ((dlookup k argsDict).getD PyVal.none) with
      | .ok extra => .ok (dupdate kwargs extra, derase k argsDict)
      | .error e => .error e
    else .ok (kwargs, argsDict)
  | Option.none => .ok (kwargs, argsDict)

/-- Embedding of `AuthJSONRPCServer._check_params` (the binder the request
dispatcher uses).  Returns the bound `args` tuple, the bound `kwargs` dict,
and the final contents of the caller-supplied `args_dict`, whose entries the
binder pops in place. -/
def Server.check_params (spec : ArgSpec) (argsList : List PyVal) (argsDict : PyDict) :
    Except BindErr (List PyVal × PyDict × PyDict) :=
  match Server.posLoop spec.args spec.varargs.isSome argsDict argsList 0 with
  | .error e => .error e
  | .ok args =>
    let kd := Server.nameLoop (Server.defaultsOf spec) args.length spec.args 0 [] argsDict
    let missing := (spec.args.drop args.length).filter
        (fun n => !(((Server.defaultsOf spec).map Prod.fst).contains n))
    if missing ≠ [] then .error (.missingRequired missing)
    else
      match Server.varargsStep spec args kd.2 with
      | .error e => .error e
      | .ok av =>
        match Server.keywordsStep spec kd.1 av.2 with
        | .error e => .error e
        | .ok kv =>
          match kv.2 with
          | [] => .ok (av.1, kv.1, [])
          | _ => .error (.extraneousParams kv.2)

/-- The `default_arg_list` of `utils.check_params`: each declared name paired
with its default value, `Option.none` playing the rôle of the `undefined`
sentinel for the leading names that have no default. -/
def Utils.defaultArgList (spec : ArgSpec) : List (String × Option PyVal) :=
  let first := spec.args.length - spec.defaults.length
  spec.args.enum.map
    (fun p => (p.2, if first ≤ p.1 then spec.defaults.get? (p.1 - first) else Option.none))

/-- The binding walk of `utils.check_params` over `default_arg_list`: each
name is bound from `args_dict` (popping it), else from the next unconsumed
positional value, else left as its default entry.  The Python code reverses
`args_list` in place and consumes with `pop()` from the end, which is
consumption from the front of the original list; the returned second
component is the list of still-unconsumed positional values in original
order (the contents of the caller's list after the reversal is undone). -/
def Utils.walk : List (String × Option PyVal) → List PyVal → PyDict →
    List (String × Option PyVal) × List PyVal × PyDict
  | [], tmp, d => ([], tmp, d)
  | (name, dflt) :: rest, tmp, d =>
    if dcontains name d then
      let r := Utils.walk rest tmp (derase name d)
      ((name, some ((dlookup name d).getD PyVal.none)) :: r.1, r.2.1, r.2.2)
    else
      match tmp with
      | v :: tmp0 =>
        let r := Utils.walk rest tmp0 d
        ((name, some v) :: r.1, r.2.1, r.2.2)
      | [] =>
        let r := Utils.walk rest tmp d
        ((name, dflt) :: r.1, r.2.1, r.2.2)

/-- The `final_args` accumulation of `utils.check_params`: the first entry
still carrying the `undefined` sentinel raises "Missing arg"; bound values
are passed through `guess_type` when `convert_type` is set. -/
def Utils.finalArgs (convert : Bool) : List (String × Option PyVal) → Except BindErr (List PyVal)
  | [] => .ok []
  | (name, entry) :: rest =>
    match entry with
    | Option.none => .error (.missingArg name)
    | some v =>
      match Utils.finalArgs convert rest with
      | .ok t => .ok ((if convert then guess_type v else v) :: t)
      | .error e => .error e

/-- The leftover-positional handling of `utils.check_params` (the
`if args_list and has_vargs / elif ... / elif ...` chain): unconsumed
positional values go to the `*args` collector, else the collector may be
filled from a dict entry of the same name, else unconsumed values raise
"Too many args". -/
def Utils.leftoverStep (spec : ArgSpec) (ordered : List (String × Option PyVal))
    (leftover : List PyVal) (d : PyDict) :
    Except BindErr (List (String × Option PyVal) × PyDict) :=
  match spec.varargs with
  | some v =>
    match leftover with
    | _ :: _ => .ok (ordered ++ leftover.map (fun x => ("*", some x)), d)
    | [] =>
      if dcontains v d then
        match asTuple ((dlookup v d).getD PyVal.none) with
        | .ok extra => .ok (ordered ++ extra.map (fun x => ("*", some x)), derase v d)
        | .error e => .error e
      else .ok (ordered, d)
  | Option.none =>
    match leftover with
    | _ :: _ => .error (.tooManyArgs leftover)
    | [] => .ok (ordered, d)

/-- Embedding of `utils.check_params`.  Returns the bound positional tuple,
the returned kwargs dict (which is the caller's `args_dict` object after the
binder's in-place pops, with values coerced when `convert_type` is set), and
the final contents of the caller's `args_list` (which the binder consumes in
place). -/
def Utils.check_params (spec : ArgSpec) (argsList : List PyVal) (argsDict : PyDict)
    (convert : Bool) : Except BindErr (List PyVal × PyDict × List PyVal) :=
  let w := Utils.walk (Utils.defaultArgList spec) argsList argsDict
  match Utils.leftoverStep spec w.1 w.2.1 w.2.2 with
  | .error e => .error e
  | .ok od =>
    match Utils.finalArgs convert od.1 with
    | .error e => .error e
    | .ok fargs =>
      match od.2, spec.keywords with
      | _ :: _, Option.none => .error (.tooManyKwargs od.2)
      | _, _ =>
        let outDict := if convert then od.2.map (fun p => (p.1, guess_type p.2)) else od.2
        .ok (fargs, outDict, w.2.1)

/-! Dispatcher: `JSONRPCError` tables, method resolution, parameter
normalisation and the `_render` request flow. -/

def CODE_PARSE_ERROR : ℤ := -32700
def CODE_INVALID_REQUEST : ℤ := -32600
def CODE_METHOD_NOT_FOUND : ℤ := -32601
def CODE_INVALID_PARAMS : ℤ := -32602
def CODE_INTERNAL_ERROR : ℤ := -32603
def CODE_APPLICATION_ERROR : ℤ := -32500
def CODE_AUTHENTICATION_ERROR : ℤ := -32501

/-- `JSONRPCError.MESSAGES`. -/
def MESSAGES : List (ℤ × String) :=
  [(CODE_PARSE_ERROR, "Parse Error. Data is not valid JSON."),
   (CODE_INVALID_REQUEST, "JSON data is not a valid Request"),
   (CODE_METHOD_NOT_FOUND, "Method Not Found"),
   (CODE_INVALID_PARAMS, "Invalid Params"),
   (CODE_INTERNAL_ERROR, "Internal Error"),
   (CODE_AUTHENTICATION_ERROR, "Authentication Failed")]

/-- `JSONRPCError.HTTP_CODES`. -/
def HTTP_CODES : List (ℤ × ℕ) :=
  [(CODE_INVALID_REQUEST, 400),
   (CODE_PARSE_ERROR, 400),
   (CODE_INVALID_PARAMS, 400),
   (CODE_METHOD_NOT_FOUND, 404),
   (CODE_INTERNAL_ERROR, 500),
   (CODE_APPLICATION_ERROR, 500),
   (CODE_AUTHENTICATION_ERROR, 401)]

/-- A constructed `JSONRPCError` (code and message; the `data`/traceback
payload is irrelevant to the claims). -/
structure JsonRpcError where
  code : ℤ
  message : String

/-- `JSONRPCError.__init__`: a `None` message is replaced by the code's
standard message (or "Error" for codes outside the table). -/
def mkError (message : Option String) (code : ℤ) : JsonRpcError :=
  ⟨code, message.getD ((MESSAGES.lookup code).getD "Error")⟩

/-- The HTTP status chosen by `_render_error`: `HTTP_CODES[error.code]`,
falling back to `HTTP_CODES[CODE_INTERNAL_ERROR] = 500` on a `KeyError`. -/
def httpStatusFor (code : ℤ) : ℕ :=
  match HTTP_CODES.lookup code with
  | some h => h
  | Option.none => 500

/-- An argument handed to `JSONRPCError.create_from_exception`: either an
exception instance, which carries a `.message` attribute, or a plain
string, which does not. -/
inductive ExcArg where
  | exc (message : String)
  | strVal (s : String)

/-- `JSONRPCError.create_from_exception` evaluates `exception.message`.  In
Python 2 an exception instance has `.message`, but a plain `str` does not,
so passing a string raises `AttributeError` instead of building the error
object. -/
def create_from_exception (e : ExcArg) (code : ℤ) : Except String JsonRpcError :=
  match e with
  | .exc m => .ok ⟨code, m⟩
  | .strVal _ => .error "AttributeError: str object has no attribute message"

/-- Dispatcher-relevant state of an `AuthJSONRPCServer`: the registry built
by `AuthorizedBase.__init__` (method name to signature, plus the
decorator-derived `authorized_functions`, `_queued_methods` and
`allowed_during_startup` lists) and the startup flag. -/
structure ServerCtx where
  use_auth : Bool
  methods : List (String × ArgSpec)
  authorized : List String
  queued : List String
  allowed_during_startup : List String
  announced_startup : Bool

/-- The `sessions` table: session id to HMAC secret (secrets abstracted as
naturals). -/
abbrev Sessions := List (String × ℕ)

/-- Assignment into the sessions table (`self.sessions.update({...})`). -/
def supdate (k : String) (v : ℕ) (s : Sessions) : Sessions :=
  if s.any (fun p => p.1 == k) then s.map (fun p => if p.1 == k then (p.1, v) else p)
  else s ++ [(k, v)]

/-- Errors raised by `_verify_method_is_callable`. -/
inductive ResolveErr where
  | unknownAPIMethod (name : String)
  | notAllowedDuringStartup (name : String)

/-- Embedding of `AuthJSONRPCServer._verify_method_is_callable`: a name not
in `callable_methods` raises `UnknownAPIMethodError`; only then, before
startup has been announced, a name outside `allowed_during_startup` raises
`NotAllowedDuringStartupError`. -/
def verify_method_is_callable (ctx : ServerCtx) (name : String) : Except ResolveErr Unit :=
  if !((ctx.methods.map Prod.fst).contains name) then .error (.unknownAPIMethod name)
  else if !ctx.announced_startup then
    if !(ctx.allowed_during_startup.contains name) then .error (.notAllowedDuringStartup name)
    else .ok ()
  else .ok ()

/-- Exceptions that escape `_render` itself and are caught by the
`except BaseException` handler in `render`. -/
inductive RenderEscape where
  | unknownArgumentFormat
  | attributeError (message : String)
  | typeErrorEscape

/-- The exception text rendered for an escape (the `e.message` handed to
`JSONRPCError.create_from_exception` by `render`). -/
def escMessage : RenderEscape → String
  | .unknownArgumentFormat => "Unknown argument format"
  | .attributeError m => m
  | .typeErrorEscape => "TypeError"

/-- The `params` normalisation of `_render`: a list equal to the
`EMPTY_PARAMS` sentinel `[{}]` means no arguments; otherwise a leading dict
in a list is the named arguments and the rest positional; a dict may carry
the positional values under the reserved `__args` key; anything else raises
"Unknown argument format". -/
def normalizeParams : PyVal → Except RenderEscape (List PyVal × PyDict)
  | .list l =>
    match l with
    | [PyVal.dict []] => .ok ([], [])
    | PyVal.dict d :: rest => .ok (rest, d)
    | _ => .ok (l, [])
  | .dict d =>
    if dcontains "__args" d then
      match (dlookup "__args" d).getD PyVal.none with
      | .list l => .ok (l, derase "__args" d)
      | _ => .error .typeErrorEscape
    else .ok ([], d)
  | _ => .error .unknownArgumentFormat

/-- A human-readable message for a binding failure (standing in for the
interpolated Python exception messages; the claims only inspect codes). -/
def bindErrMessage : BindErr → String
  | .duplicateArgument n => "Argument " ++ n ++ " given as an arg and a kwarg"
  | .tooManyArguments => "Too many arguments given"
  | .missingRequired _ => "missing required arguments"
  | .extraneousParams _ => "Extraneous params given"
  | .tooManyArgs _ => "Too many args"
  | .missingArg n => "Missing arg: " ++ n
  | .tooManyKwargs _ => "Too many kwargs"
  | .typeError => "TypeError"

/-- The visible outcome of one `render` call: the new-session handshake, an
error response (code, HTTP status, message), or a successful hand-off to
procedure execution with the bound arguments. -/
inductive Rendered where
  | handshake
  | failure (code : ℤ) (http : ℕ) (message : String)
  | dispatched (args : List PyVal) (kwargs : PyDict) (isQueued : Bool) (replyWithSecret : Bool)

/-- Render an error response from a `JSONRPCError` as `_render_error` does:
its code, the mapped HTTP status, and its message. -/
def renderErrorOf (e : JsonRpcError) : Rendered :=
  .failure e.code (httpStatusFor e.code) e.message

/-- Result of the authentication gate inside `_render`. -/
inductive AuthStep where
  | fail (r : Rendered)
  | proceed (sessions : Sessions) (replyWithSecret : Bool)

/-- The authentication gate of `_render` (lines 277-293).  `verify` stands
for `APIKey.compare_hmac` over `get_auth_message(parsed)`; that HMAC
comparison lives in `auth/util.py`, outside the embedded sources, and is
abstracted as a Boolean-valued function.  A missing or invalid token raises
`InvalidAuthenticationToken`, whose handler calls
`JSONRPCError.create_from_exception(err.message, ...)` — passing the
message *string* where an exception is expected, so the handler itself
raises `AttributeError` (an escape) instead of producing the intended
authentication-error response.  On success the session secret is rotated
(`_update_session_secret`) and the reply is flagged to carry the next
secret. -/
def renderAuth (ctx : ServerCtx) (verify : ℕ → String → Bool) (rotatedSecret : ℕ)
    (sessions : Sessions) (sessionId : String) (token : Option String) (method : String) :
    Except RenderEscape AuthStep :=
  if ctx.use_auth ∧ ctx.authorized.contains method then
    match token with
    | Option.none =>
      match create_from_exception (.strVal "Authentication token not found")
          CODE_AUTHENTICATION_ERROR with
      | .ok e => .ok (.fail (renderErrorOf e))
      | .error m => .error (.attributeError m)
    | some t =>
      match sessions.lookup sessionId with
      | Option.none => .error (.attributeError "NoneType object has no attribute compare_hmac")
      | some key =>
        if verify key t then
          .ok (.proceed (supdate sessionId rotatedSecret sessions) true)
        else
          match create_from_exception (.strVal "Invalid authentication token")
              CODE_AUTHENTICATION_ERROR with
          | .ok e => .ok (.fail (renderErrorOf e))
          | .error m => .error (.attributeError m)
  else .ok (.proceed sessions false)

/-- Embedding of `render`/`_render` for a parsed request (method name,
`params` value, optional `hmac` token): the session handshake, the
authentication gate, method resolution, parameter normalisation and
argument binding, each failure rendered with its JSON-RPC code and HTTP
status.  Exceptions escaping `_render` are caught in `render` and rendered
as `CODE_APPLICATION_ERROR` (HTTP 500).  Returns the outcome together with
the final sessions table. -/
def renderRequest (ctx : ServerCtx) (verify : ℕ → String → Bool)
    (freshSecret rotatedSecret : ℕ) (sessions : Sessions) (sessionId : String)
    (method : String) (params : PyVal) (token : Option String) :
    Rendered × Sessions :=
  if ctx.use_auth ∧ sessions.lookup sessionId = Option.none then
    (.handshake, supdate sessionId freshSecret sessions)
  else
    match renderAuth ctx verify rotatedSecret sessions sessionId token method with
    | .error esc => (.failure CODE_APPLICATION_ERROR 500 (escMessage esc), sessions)
    | .ok (.fail r) => (r, sessions)
    | .ok (.proceed sessions2 reply) =>
      match verify_method_is_callable ctx method with
      | .error (.unknownAPIMethod _) =>
        (renderErrorOf (mkError Option.none CODE_METHOD_NOT_FOUND), sessions2)
      | .error (.notAllowedDuringStartup _) =>
        (renderErrorOf (mkError
          (some "This method is unavailable until the daemon is fully started")
          CODE_INVALID_REQUEST), sessions2)
      | .ok _ =>
        match normalizeParams params with
        | .error esc => (.failure CODE_APPLICATION_ERROR 500 (escMessage esc), sessions2)
        | .ok ad =>
          match Server.check_params ((List.lookup method ctx.methods).getD ⟨[], [], Option.none, Option.none⟩) ad.1 ad.2 with
          | .error e =>
            (renderErrorOf (mkError (some (bindErrMessage e)) CODE_INVALID_PARAMS), sessions2)
          | .ok res =>
            (.dispatched res.1 res.2.1 (ctx.queued.contains method) reply, sessions2)

/-! Event model of the queued-method lock handling in `_render`
(lines 342-368), for one fixed procedure name flagged `queued`.

Requests are numbered.  A request arriving when `_call_lock` has no entry
for the name starts executing at once, stores its own completion deferred
(`request.notifyFinish()`) as the lock, and registers `_del_lock` as a
*callback* (success path only) on that deferred.  A request arriving while
a lock is present chains its execution onto the lock deferred with
`addCallback`, so queued requests attached to the same deferred run one
after another in arrival order once it fires.  The model keeps, per lock
owner, the chain of requests attached to its completion deferred.

Events: `arrive i` (request `i` reaches the queued branch of `_render`),
`execEnd i` (the `maybeDeferred` running `i`'s procedure body fires and its
response is rendered), `finishOk a` / `finishErr a` (request `a`'s
completion deferred fires — as a callback on normal completion, or as an
errback when the connection was lost; the model only admits completion
signals that fire after the request's execution has ended, i.e. it does not
model mid-execution disconnects and their cancellation cascade).  On
`finishOk` the owner's `_del_lock` runs and removes the lock-table entry;
on `finishErr` the failure skips the `_del_lock` *callback* and is absorbed
by the `_handle_dropped_request` errback (which returns `None`,
switching the chain back to the callback path), so the entry is *not*
removed while the queued calls chained behind the owner still proceed. -/

/-- The chain of requests attached to one lock owner's completion deferred. -/
structure Chain where
  owner : ℕ
  ownerRunning : Bool
  fired : Bool
  firedErr : Bool
  running : Option ℕ
  queue : List ℕ
deriving DecidableEq

/-- Requests currently executing on this chain: the owner while its own
`maybeDeferred` is live, plus the queued request the fired deferred is
currently paused on. -/
def Chain.execs (c : Chain) : List ℕ :=
  (if c.ownerRunning then [c.owner] else []) ++
    (match c.running with
     | some j => [j]
     | Option.none => [])

/-- All requests attached to this chain (owner, currently-running queued
call, waiting queued calls). -/
def Chain.members (c : Chain) : List ℕ :=
  c.owner ::
    ((match c.running with
      | some j => [j]
      | Option.none => []) ++ c.queue)

/-- Promote the first waiting call once the chain deferred has fired and is
not paused on another call (adding callbacks to an already-fired idle
deferred runs them at once). -/
def Chain.advance (c : Chain) : Chain :=
  if c.fired ∧ c.running = Option.none then
    match c.queue with
    | j :: rest => { c with running := some j, queue := rest }
    | [] => c
  else c

/-- State of the serializer for the one procedure name: the `_call_lock`
entry (the owner of the deferred stored there), the live chains, arrived
request ids, and the ids whose execution has ended. -/
structure SerState where
  callLock : Option ℕ
  chains : List Chain
  arrived : List ℕ
  ended : List ℕ
deriving DecidableEq

/-- All requests currently executing. -/
def SerState.execSet (st : SerState) : List ℕ :=
  st.chains.flatMap Chain.execs

/-- Events driving the serializer model. -/
inductive Ev where
  | arrive (i : ℕ)
  | execEnd (i : ℕ)
  | finishOk (a : ℕ)
  | finishErr (a : ℕ)
deriving DecidableEq

/-- A fresh chain created when a request starts with no lock present. -/
def newChain (i : ℕ) : Chain :=
  ⟨i, true, false, false, Option.none, []⟩

/-- Effect on a chain of a new request chaining onto the lock owner `a`'s
completion deferred (with the promotion rule for an already-fired idle
deferred). -/
def enqueueChain (a i : ℕ) (c : Chain) : Chain :=
  if c.owner = a then Chain.advance { c with queue := c.queue ++ [i] } else c

/-- Effect of `execEnd i` on a chain: the owner's own deferred fires, or the
chain deferred resumes past the finished queued call and starts the next. -/
def chainEnd (i : ℕ) (c : Chain) : Chain :=
  if c.ownerRunning ∧ c.owner = i then { c with ownerRunning := false }
  else if c.running = some i then Chain.advance { c with running := Option.none }
  else c

/-- Effect of the owner's completion deferred firing on its chain. -/
def fireChain (isErr : Bool) (a : ℕ) (c : Chain) : Chain :=
  if c.owner = a then Chain.advance { c with fired := true, firedErr := isErr } else c

/-- One step of the serializer model; `Option.none` marks an event that
cannot occur in the modelled schedules. -/
def step (st : SerState) : Ev → Option SerState
  | .arrive i =>
    if i ∈ st.arrived then Option.none
    else
      match st.callLock with
      | Option.none =>
        -- no lock: start at once, install own completion deferred as the lock
        some { st with
          callLock := some i,
          chains := st.chains ++ [newChain i],
          arrived := st.arrived ++ [i] }
      | some a =>
        -- lock held: chain onto the lock deferred, in arrival order
        some { st with
          chains := st.chains.map (enqueueChain a i),
          arrived := st.arrived ++ [i] }
  | .execEnd i =>
    if i ∈ st.execSet then
      some { st with chains := st.chains.map (chainEnd i), ended := st.ended ++ [i] }
    else Option.none
  | .finishOk a =>
    match st.chains.find? (fun c => c.owner == a) with
    | some c =>
      if ¬c.fired ∧ ¬c.ownerRunning then
        -- _del_lock runs (callback path): the lock-table entry is removed
        some { st with
          callLock := if st.callLock = some a then Option.none else st.callLock,
          chains := st.chains.map (fireChain false a) }
      else Option.none
    | Option.none => if a ∈ st.ended then some st else Option.none
  | .finishErr a =>
    match st.chains.find? (fun c => c.owner == a) with
    | some c =>
      if ¬c.fired ∧ ¬c.ownerRunning then
        -- errback path: _del_lock is skipped, the lock-table entry stays
        some { st with chains := st.chains.map (fireChain true a) }
      else Option.none
    | Option.none => if a ∈ st.ended then some st else Option.none

/-- Initial serializer state: no lock, no chains. -/
def initSer : SerState := ⟨Option.none, [], [], []⟩

/-- Run a schedule of events from the initial state. -/
def runSer (evs : List Ev) : Option SerState :=
  evs.foldlM step initSer

/-! Specification-side definitions used to state the claims. -/

/-- The boolean literals the coercion accepts, with their values (spec §4.1
step 5, amended to the exact spellings the code tests). -/
def boolLiterals : List (String × Bool) :=
  [("true", true), ("True", true), ("TRUE", true),
   ("false", false), ("False", false), ("FALSE", false)]

/-- The null literals the coercion accepts (amended to the exact spellings
the code tests). -/
def nullLiterals : List String := ["none", "None", "null", "NULL", "NONE"]

/-- The string coercion as the spec describes it, amended to the exact
literal tables above: boolean and null literals take precedence; then a
string containing a decimal point goes through float parsing and any other
string through integer parsing, keeping the original string on parse
failure; non-strings are never coerced. -/
def coerce_spec (v : PyVal) : PyVal :=
  match v with
  | .str s =>
    match boolLiterals.lookup s with
    | some b => .bool b
    | Option.none =>
      if s ∈ nullLiterals then .none
      else if hasDot s then
        match pyParseFloat s with
        | some q => .float q
        | Option.none => .str s
      else
        match pyParseInt s with
        | some n => .int n
        | Option.none => .str s
  | v => v

/-- The value each declared parameter receives when a Python function is
called as `fn(*args, **kwargs)`: the `i`-th name takes the `i`-th
positional value if present, else its named value. -/
def boundEnv (names : List String) (args : List PyVal) (kwargs : PyDict) :
    List (String × PyVal) :=
  names.enum.map
    (fun p => (p.2, ((args.get? p.1).getD ((dlookup p.2 kwargs).getD PyVal.none))))

/-- Well-formedness of one chain within a serializer state: an owner still
executing has an unfired completion deferred; an unfired deferred is not
running any queued call and is exactly the deferred stored in the lock
table; an error-fired flag implies fired; and a fired idle chain has an
empty queue (callbacks added to a fired idle deferred run at once). -/
def chainWF (lock : Option ℕ) (c : Chain) : Prop :=
  (c.ownerRunning = true → c.fired = false)
  ∧ (c.fired = false → c.running = Option.none)
  ∧ (c.fired = false → lock = some c.owner)
  ∧ (c.firedErr = true → c.fired = true)
  ∧ (c.fired = true → c.running = Option.none → c.queue = [])

/-- Reachability invariant of the serializer model: every request id plays
at most one rôle (owner, running, queued) across all chains; all ids in
play have arrived; each chain is well-formed; the lock entry points at an
existing chain; and an ended request is not executing, not queued, and has
arrived. -/
def SerInv (st : SerState) : Prop :=
  (st.chains.flatMap Chain.members).Nodup
  ∧ (∀ m ∈ st.chains.flatMap Chain.members, m ∈ st.arrived)
  ∧ (∀ c ∈ st.chains, chainWF st.callLock c)
  ∧ (∀ a, st.callLock = some a → ∃ c, c ∈ st.chains ∧ c.owner = a)
  ∧ (∀ i ∈ st.ended, i ∉ st.execSet)
  ∧ (∀ i ∈ st.ended, ∀ c ∈ st.chains, i ∉ c.queue)
  ∧ (∀ i ∈ st.ended, i ∈ st.arrived)

/-- The phases the three-request scenario of the serializer claim moves
through once request 3 has been queued behind request 2 on request 1's
chain: 2 and 3 both queued; 2 running with 3 queued; 3 running with 2
ended; both ended.  In every phase, 1, 2 and 3 have all arrived (so no
further arrival of these ids is possible). -/
def ThreePhase (st : SerState) : Prop :=
  (1 ∈ st.arrived ∧ 2 ∈ st.arrived ∧ 3 ∈ st.arrived)
  ∧ ((∃ b, st.chains = [⟨1, b, false, false, Option.none, [2, 3]⟩]
        ∧ st.callLock = some 1 ∧ 2 ∉ st.ended ∧ 3 ∉ st.ended)
    ∨ (∃ fe, st.chains = [⟨1, false, true, fe, some 2, [3]⟩]
        ∧ 2 ∉ st.ended ∧ 3 ∉ st.ended)
    ∨ (∃ fe, st.chains = [⟨1, false, true, fe, some 3, []⟩]
        ∧ 2 ∈ st.ended ∧ 3 ∉ st.ended)
    ∨ (∃ fe, st.chains = [⟨1, false, true, fe, Option.none, []⟩]
        ∧ 2 ∈ st.ended ∧ 3 ∈ st.ended))

/-! Theorems. -/

/-- C5 (counterexample): the claim promises a boolean for *any* string
case-insensitively equal to "true", but `guess_type` leaves the
mixed-case spelling "tRue" — case-insensitively equal to "true", as the
first conjunct witnesses — entirely unchanged. -/
theorem guess_type_not_case_insensitive :
    "tRue".toList.map Char.toLower = "true".toList
      ∧ guess_type (PyVal.str "tRue") = PyVal.str "tRue" :=
  ⟨by decide, rfl⟩

/-- C5 (amended): `guess_type` coerces exactly as the spec describes with
the literal tables restricted to the exact spellings the code tests
(`true/True/TRUE`, `false/False/FALSE`, `none/None/null/NULL/NONE`):
boolean and null literals take precedence, then dotted strings go through
float parsing and other strings through integer parsing, keeping the
original string on parse failure, and non-strings are never coerced. -/
theorem guess_type_eq_coerce_spec (v : PyVal) : guess_type v = coerce_spec v := by
  cases v <;> try rfl
  rename_i s
  by_cases h1 : s = "true"
  · subst h1; rfl
  by_cases h2 : s = "True"
  · subst h2; rfl
  by_cases h3 : s = "TRUE"
  · subst h3; rfl
  by_cases h4 : s = "false"
  · subst h4; rfl
  by_cases h5 : s = "False"
  · subst h5; rfl
  by_cases h6 : s = "FALSE"
  · subst h6; rfl
  by_cases h7 : s = "none"
  · subst h7; rfl
  by_cases h8 : s = "None"
  · subst h8; rfl
  by_cases h9 : s = "null"
  · subst h9; rfl
  by_cases h10 : s = "NULL"
  · subst h10; rfl
  by_cases h11 : s = "NONE"
  · subst h11; rfl
  simp only [guess_type, coerce_spec, boolLiterals, nullLiterals, List.lookup,
    List.mem_cons, List.not_mem_nil, or_false,
    h1, h2, h3, h4, h5, h6, h7, h8, h9, h10, h11, if_false, or_self,
    beq_iff_eq]
  have e1 : (s == "true") = false := by simp [h1]
  have e2 : (s == "True") = false := by simp [h2]
  have e3 : (s == "TRUE") = false := by simp [h3]
  have e4 : (s == "false") = false := by simp [h4]
  have e5 : (s == "False") = false := by simp [h5]
  have e6 : (s == "FALSE") = false := by simp [h6]
  rw [e1, e2, e3, e4, e5, e6]

/-- C7: the request `params` value `[{"two": null}, 1]` normalises to
positional `[1]` and named `{"two": None}` (leading dict treated as named
arguments); against the signature `(one, two=None, three="three", four=1)`
the `utils.check_params` binder yields exactly the positional tuple
`(1, None, "three", 1)`, and the dispatcher binder
(`AuthJSONRPCServer._check_params`) binds `one` positionally, `two` from
the named arguments and the rest from defaults, so every declared
parameter receives the claimed value. -/
theorem request_binding_example :
    normalizeParams (PyVal.list [PyVal.dict [("two", PyVal.none)], PyVal.int 1])
        = .ok ([PyVal.int 1], [("two", PyVal.none)])
      ∧ Utils.check_params
          ⟨["one", "two", "three", "four"],
            [PyVal.none, PyVal.str "three", PyVal.int 1], Option.none, Option.none⟩
          [PyVal.int 1] [("two", PyVal.none)] false
        = .ok ([PyVal.int 1, PyVal.none, PyVal.str "three", PyVal.int 1], [], [])
      ∧ Server.check_params
          ⟨["one", "two", "three", "four"],
            [PyVal.none, PyVal.str "three", PyVal.int 1], Option.none, Option.none⟩
          [PyVal.int 1] [("two", PyVal.none)]
        = .ok ([PyVal.int 1],
            [("two", PyVal.none), ("three", PyVal.str "three"), ("four", PyVal.int 1)], [])
      ∧ boundEnv ["one", "two", "three", "four"] [PyVal.int 1]
          [("two", PyVal.none), ("three", PyVal.str "three"), ("four", PyVal.int 1)]
        = [("one", PyVal.int 1), ("two", PyVal.none),
           ("three", PyVal.str "three"), ("four", PyVal.int 1)] :=
  ⟨rfl, rfl, rfl, rfl⟩

/-- C10: in `_verify_method_is_callable` the existence check strictly
precedes the startup gate: an unregistered name raises
`UnknownAPIMethodError` in every startup state, and the
`NotAllowedDuringStartupError` outcome is only ever produced for names that
are registered. -/
theorem verify_method_existence_first (ctx : ServerCtx) (name : String) :
    ((ctx.methods.map Prod.fst).contains name = false →
      verify_method_is_callable ctx name = .error (.unknownAPIMethod name))
    ∧ (verify_method_is_callable ctx name = .error (.notAllowedDuringStartup name) →
      (ctx.methods.map Prod.fst).contains name = true) := by
  unfold verify_method_is_callable
  constructor
  · intro h
    rw [h]
    rfl
  · intro h
    by_cases hc : (ctx.methods.map Prod.fst).contains name
    · exact hc
    · have hc2 : (ctx.methods.map Prod.fst).contains name = false := by
        simpa using hc
      rw [hc2] at h
      simp at h

/-- C10 (witness): on an empty registry, resolving "stop" before startup
has been announced yields the unknown-method error, not the startup
error. -/
theorem verify_method_existence_first_w :
    verify_method_is_callable ⟨false, [], [], [], [], false⟩ "stop"
      = .error (.unknownAPIMethod "stop") :=
  (verify_method_existence_first ⟨false, [], [], [], [], false⟩ "stop").1 (by decide)

/-- Helper: an unregistered name resolves to the unknown-method error. -/
theorem verify_unknown_of (ctx : ServerCtx) (m : String)
    (h : (ctx.methods.map Prod.fst).contains m = false) :
    verify_method_is_callable ctx m = .error (.unknownAPIMethod m) := by
  unfold verify_method_is_callable
  rw [h]
  rfl

/-- Helper: a registered name outside the startup allow-list resolves to the
startup error while startup is unannounced. -/
theorem verify_startup_of (ctx : ServerCtx) (m : String)
    (h1 : (ctx.methods.map Prod.fst).contains m = true)
    (h2 : ctx.announced_startup = false)
    (h3 : ctx.allowed_during_startup.contains m = false) :
    verify_method_is_callable ctx m = .error (.notAllowedDuringStartup m) := by
  unfold verify_method_is_callable
  rw [h1, h2, h3]
  rfl

/-- Helper: the authentication gate is a no-op for methods that do not
require authentication. -/
theorem renderAuth_skip (ctx : ServerCtx) (verify : ℕ → String → Bool) (rot : ℕ)
    (sessions : Sessions) (sid : String) (token : Option String) (m : String)
    (hauth : ctx.authorized.contains m = false) :
    renderAuth ctx verify rot sessions sid token m = .ok (.proceed sessions false) := by
  unfold renderAuth
  rw [if_neg]
  intro hand
  rw [hauth] at hand
  exact Bool.false_ne_true hand.2

/-- C8: for a request whose session is established (or with authentication
off) naming a method that needs no token, an unknown name renders error
code `-32601` with HTTP status 404 and the standard "Method Not Found"
message, while a registered name that is not allowed before startup
completes renders `-32600` (InvalidRequest) with the
daemon-still-starting message. -/
theorem resolution_errors_rendered (ctx : ServerCtx) (verify : ℕ → String → Bool)
    (fresh rot : ℕ) (sessions : Sessions) (sid m : String) (params : PyVal)
    (token : Option String)
    (hno : ¬(ctx.use_auth = true ∧ sessions.lookup sid = Option.none))
    (hauth : ctx.authorized.contains m = false) :
    ((ctx.methods.map Prod.fst).contains m = false →
      renderRequest ctx verify fresh rot sessions sid m params token
        = (.failure CODE_METHOD_NOT_FOUND 404 "Method Not Found", sessions))
    ∧ ((ctx.methods.map Prod.fst).contains m = true →
       ctx.announced_startup = false →
       ctx.allowed_during_startup.contains m = false →
       renderRequest ctx verify fresh rot sessions sid m params token
        = (.failure CODE_INVALID_REQUEST 400
            "This method is unavailable until the daemon is fully started", sessions)) := by
  unfold renderRequest
  rw [if_neg hno, renderAuth_skip ctx verify rot sessions sid token m hauth]
  constructor
  · intro hm
    rw [verify_unknown_of ctx m hm]
    rfl
  · intro h1 h2 h3
    rw [verify_startup_of ctx m h1 h2 h3]
    rfl

/-- C8 (witness): with authentication off, an unknown method renders
code -32601 with status 404, and a registered method before startup renders code -32600 with status 400. -/
theorem resolution_errors_rendered_w :
    renderRequest ⟨false, [], [], [], [], false⟩ (fun _ _ => true) 0 0 [] "s" "nope"
        (PyVal.dict []) Option.none
      = (.failure CODE_METHOD_NOT_FOUND 404 "Method Not Found", [])
    ∧ renderRequest ⟨false, [("status", ⟨[], [], Option.none, Option.none⟩)], [], [], [], false⟩
        (fun _ _ => true) 0 0 [] "s" "status" (PyVal.dict []) Option.none
      = (.failure CODE_INVALID_REQUEST 400
          "This method is unavailable until the daemon is fully started", []) :=
  ⟨(resolution_errors_rendered ⟨false, [], [], [], [], false⟩ (fun _ _ => true) 0 0 [] "s"
      "nope" (PyVal.dict []) Option.none (by decide) (by decide)).1 (by decide),
   (resolution_errors_rendered ⟨false, [("status", ⟨[], [], Option.none, Option.none⟩)], [],
      [], [], false⟩ (fun _ _ => true) 0 0 [] "s" "status" (PyVal.dict []) Option.none
      (by decide) (by decide)).2 (by decide) (by decide) (by decide)⟩

/-- C3: a request for the auth-required method "balance" with
authentication enabled, an established session (id "sid", secret 42) and no
`hmac` token does leave the session secret unrotated, but it does *not*
render `-32501`/401: the `InvalidAuthenticationToken` handler passes
`err.message` (a plain string) to `JSONRPCError.create_from_exception`,
whose `exception.message` attribute access raises `AttributeError`, so the
catch-all in `render` responds with `-32500` and HTTP 500 instead of the
intended authentication error. -/
theorem missing_token_renders_500 :
    renderRequest
        ⟨true, [("balance", ⟨[], [], Option.none, Option.none⟩)], ["balance"], [], [], true⟩
        (fun _ _ => true) 7 9 [("sid", 42)] "sid" "balance"
        (PyVal.list [PyVal.dict []]) Option.none
      = (.failure CODE_APPLICATION_ERROR 500
          "AttributeError: str object has no attribute message", [("sid", 42)]) := rfl

/-- Helper: if some positional value at index `i + j` has its parameter name
in `args_dict`, the positional loop of the dispatcher binder raises the
duplicate-argument error (for the first such name), checking named-argument
presence before consuming the positional value. -/
theorem posLoop_dup (names : List String) (hv : Bool) (d : PyDict) :
    ∀ (l : List PyVal) (i j : ℕ), j < l.length → i + j < names.length →
      dcontains (names.getD (i + j) "") d = true →
      ∃ nm, Server.posLoop names hv d l i = .error (.duplicateArgument nm)
        ∧ dcontains nm d = true := by
  intro l
  induction l with
  | nil =>
    intro i j hj _ _
    simp at hj
  | cons a rest ih =>
    intro i j hj hlen hdup
    have hi : i < names.length := by omega
    unfold Server.posLoop
    rw [if_pos hi]
    by_cases hd : dcontains (names.getD i "") d
    · exact ⟨names.getD i "", by rw [if_pos hd], hd⟩
    · have hj0 : j ≠ 0 := by
        intro h0
        subst h0
        rw [Nat.add_zero] at hdup
        exact hd hdup
      obtain ⟨j', rfl⟩ : ∃ j', j = j' + 1 := ⟨j - 1, by omega⟩
      have harith : i + (j' + 1) = (i + 1) + j' := by omega
      rw [harith] at hlen hdup
      obtain ⟨nm, hres, hnm⟩ :=
        ih (i + 1) j' (by simpa using Nat.lt_of_succ_lt_succ (by simpa using hj)) hlen hdup
      rw [if_neg hd, hres]
      exact ⟨nm, rfl, hnm⟩

/-- C2 (amended): the *dispatcher* binder (`AuthJSONRPCServer._check_params`)
always fails with the duplicate-argument error when any declared parameter
receives both a positional value (at position `j`) and a named value,
regardless of the other arguments, and the duplicate is detected by
checking named-argument presence before the positional value is consumed. -/
theorem server_binder_duplicate_argument (spec : ArgSpec) (argsList : List PyVal)
    (argsDict : PyDict) (j : ℕ)
    (hj : j < argsList.length) (hjn : j < spec.args.length)
    (hd : dcontains (spec.args.getD j "") argsDict = true) :
    ∃ nm, Server.check_params spec argsList argsDict = .error (.duplicateArgument nm)
      ∧ dcontains nm argsDict = true := by
  obtain ⟨nm, hres, hnm⟩ :=
    posLoop_dup spec.args spec.varargs.isSome argsDict argsList 0 j hj (by simpa using hjn)
      (by simpa using hd)
  refine ⟨nm, ?_, hnm⟩
  unfold Server.check_params
  rw [hres]

/-- C2 (witness): a one-parameter signature given the parameter both
positionally and by name fails with the duplicate-argument error. -/
theorem server_binder_duplicate_argument_w :
    ∃ nm, Server.check_params ⟨["a"], [], Option.none, Option.none⟩ [PyVal.int 7]
        [("a", PyVal.int 5)] = .error (.duplicateArgument nm)
      ∧ dcontains nm [("a", PyVal.int 5)] = true :=
  server_binder_duplicate_argument ⟨["a"], [], Option.none, Option.none⟩ [PyVal.int 7]
    [("a", PyVal.int 5)] 0 (by decide) (by decide) (by decide)

/-- C2 (counterexample): the *utils* binder does not detect the duplicate:
with signature `(a, *v)` and parameter `a` supplied both positionally (7)
and by name (5), binding *succeeds*, silently preferring the named value
for `a` and shunting the positional 7 into the collector (and the caller's
positional list still holds the unconsumed 7). -/
theorem utils_binder_duplicate_not_raised :
    Utils.check_params ⟨["a"], [], some "v", Option.none⟩ [PyVal.int 7]
        [("a", PyVal.int 5)] false
      = .ok ([PyVal.int 5, PyVal.int 7], [], [PyVal.int 7]) := rfl

/-- Helper: with no named arguments and a positional collector, the
dispatcher positional loop consumes every positional value. -/
theorem posLoop_empty_dict_varargs (names : List String) :
    ∀ (l : List PyVal) (i : ℕ), Server.posLoop names true [] l i = .ok l := by
  intro l
  induction l with
  | nil => intro i; rfl
  | cons a rest ih =>
    intro i
    unfold Server.posLoop
    by_cases hi : i < names.length
    · rw [if_pos hi]
      have : dcontains (names.getD i "") [] = false := rfl
      rw [this]
      simp only [Bool.false_eq_true, if_false, ih (i + 1)]
    · rw [if_neg hi]
      simp [ih (i + 1)]

/-- Helper: with no named arguments and no positional collector, the first
positional value beyond the declared names raises "Too many arguments
given". -/
theorem posLoop_empty_dict_overflow (names : List String) :
    ∀ (l : List PyVal) (i : ℕ), i ≤ names.length → names.length < i + l.length →
      Server.posLoop names false [] l i = .error .tooManyArguments := by
  intro l
  induction l with
  | nil =>
    intro i hi hlen
    simp at hlen
    omega
  | cons a rest ih =>
    intro i hi hlen
    unfold Server.posLoop
    by_cases hilt : i < names.length
    · rw [if_pos hilt]
      have : dcontains (names.getD i "") [] = false := rfl
      rw [this]
      simp only [Bool.false_eq_true, if_false]
      rw [ih (i + 1) (by omega) (by simp at hlen ⊢; omega)]
    · rw [if_neg hilt]
      rfl

/-- Helper: the name loop of the dispatcher binder leaves `kwargs` and
`args_dict` unchanged when its index condition never fires. -/
theorem nameLoop_skip (dfl : List (String × PyVal)) (argsLen : ℕ) :
    ∀ (ns : List String) (i : ℕ) (kw d : PyDict),
      (∀ j, j < ns.length → argsLen + kw.length ≠ i + j) →
      Server.nameLoop dfl argsLen ns i kw d = (kw, d) := by
  intro ns
  induction ns with
  | nil => intro i kw d _; rfl
  | cons req rest ih =>
    intro i kw d h
    unfold Server.nameLoop
    rw [if_neg (by simpa using h 0 (by simp))]
    exact ih (i + 1) kw d (fun j hj => by
      have := h (j + 1) (by simpa using Nat.succ_lt_succ hj)
      omega)

/-- Helper: the collector-from-dict step is a no-op on an empty dict. -/
theorem varargsStep_empty (spec : ArgSpec) (args : List PyVal) :
    Server.varargsStep spec args [] = .ok (args, []) := by
  unfold Server.varargsStep
  cases spec.varargs with
  | none => rfl
  | some v => rfl

/-- Helper: the keywords-from-dict step is a no-op on an empty dict. -/
theorem keywordsStep_empty (spec : ArgSpec) (kwargs : PyDict) :
    Server.keywordsStep spec kwargs [] = .ok (kwargs, []) := by
  unfold Server.keywordsStep
  cases spec.keywords with
  | none => rfl
  | some k => rfl

/-- Helper: with an empty named dict, the utils walk binds declared names to
the leading positional values and leaves the rest unconsumed. -/
theorem walk_empty_dict (dal : List (String × Option PyVal)) :
    ∀ (l : List PyVal), dal.length ≤ l.length →
      Utils.walk dal l [] =
        (List.zipWith (fun p v => (p.1, some v)) dal l, l.drop dal.length, []) := by
  induction dal with
  | nil => intro l _; rfl
  | cons hd rest ih =>
    intro l hlen
    obtain ⟨name, dflt⟩ := hd
    cases l with
    | nil => simp at hlen
    | cons v tl =>
      unfold Utils.walk
      have hc : dcontains name [] = false := rfl
      rw [hc]
      simp only [Bool.false_eq_true, if_false]
      rw [ih tl (by simpa using Nat.le_of_succ_le_succ (by simpa using hlen))]
      simp [List.zipWith]

/-- Helper: the final-args fold over fully bound entries returns their
values (no conversion). -/
theorem finalArgs_zipWith (dal : List (String × Option PyVal)) :
    ∀ (l : List PyVal), dal.length ≤ l.length →
      Utils.finalArgs false (List.zipWith (fun p v => (p.1, some v)) dal l)
        = .ok (l.take dal.length) := by
  induction dal with
  | nil => intro l _; rfl
  | cons hd rest ih =>
    intro l hlen
    cases l with
    | nil => simp at hlen
    | cons v tl =>
      simp only [List.zipWith]
      unfold Utils.finalArgs
      rw [ih tl (by simpa using Nat.le_of_succ_le_succ (by simpa using hlen))]
      simp [List.take]

/-- Helper: appending collector entries (all bound) to a successfully bound
prefix appends their values to the final tuple. -/
theorem finalArgs_append_star (A : List (String × Option PyVal)) (C : List PyVal) :
    ∀ vals, Utils.finalArgs false A = .ok vals →
      Utils.finalArgs false (A ++ C.map (fun x => ("*", some x))) = .ok (vals ++ C) := by
  induction A with
  | nil =>
    intro vals h
    have hv : vals = [] := by
      unfold Utils.finalArgs at h
      exact (Except.ok.injEq _ _).mp h.symm ▸ rfl
    subst hv
    simp only [List.nil_append]
    induction C with
    | nil => rfl
    | cons c tl ihc =>
      unfold Utils.finalArgs
      simp only [List.map]
      rw [ihc]
      rfl
  | cons e rest ih =>
    intro vals h
    obtain ⟨name, entry⟩ := e
    cases entry with
    | none => simp [Utils.finalArgs] at h
    | some v =>
      cases hrest : Utils.finalArgs false rest with
      | error e2 => simp [Utils.finalArgs, hrest] at h
      | ok t =>
        simp only [Utils.finalArgs, hrest] at h
        simp only [List.cons_append, Utils.finalArgs, ih t hrest]
        simp only [Except.ok.injEq] at h ⊢
        simp only [List.append_eq]
        rw [ih t hrest]
        simp [← h]

/-- C9: with only positional arguments, a signature declaring a positional
collector accepts any number of positional values at or above the declared
arity in both binders — the excess appended in order to the collector (the
dispatcher binder returns the whole list as the bound tuple; the utils
binder does the same while the unconsumed excess stays in the caller's
list) — whereas without a collector any positional value in excess of the
declared parameters fails: "Too many arguments given" in the dispatcher
binder and "Too many args" (carrying the excess values) in the utils
binder. -/
theorem positional_collector_arity (names : List String) (dflts : List PyVal) (v : String)
    (kw : Option String) (l : List PyVal) :
    (names.length ≤ l.length →
      Server.check_params ⟨names, dflts, some v, kw⟩ l [] = .ok (l, [], [])
      ∧ Utils.check_params ⟨names, dflts, some v, kw⟩ l [] false
          = .ok (l, [], l.drop names.length))
    ∧ (names.length < l.length →
      Server.check_params ⟨names, dflts, Option.none, kw⟩ l [] = .error .tooManyArguments
      ∧ Utils.check_params ⟨names, dflts, Option.none, kw⟩ l [] false
          = .error (.tooManyArgs (l.drop names.length))) := by
  constructor
  · intro h
    constructor
    · unfold Server.check_params
      simp only [Option.isSome_some]
      rw [posLoop_empty_dict_varargs names l 0]
      dsimp only
      rw [nameLoop_skip _ _ names 0 [] [] (fun j hj => by simp only [List.length_nil]; omega)]
      have hdrop : names.drop l.length = [] := List.drop_eq_nil_of_le h
      simp only [hdrop, List.filter_nil, ne_eq, not_true_eq_false, if_false]
      rw [varargsStep_empty]
      dsimp only
      rw [keywordsStep_empty]
    · unfold Utils.check_params
      have hdal : (Utils.defaultArgList ⟨names, dflts, some v, kw⟩).length = names.length := by
        simp [Utils.defaultArgList]
      rw [walk_empty_dict _ l (by rw [hdal]; exact h)]
      dsimp only
      rw [hdal]
      have hstep : Utils.leftoverStep ⟨names, dflts, some v, kw⟩
          (List.zipWith (fun p x => (p.1, some x))
            (Utils.defaultArgList ⟨names, dflts, some v, kw⟩) l)
          (l.drop names.length) []
          = .ok (List.zipWith (fun p x => (p.1, some x))
              (Utils.defaultArgList ⟨names, dflts, some v, kw⟩) l
              ++ (l.drop names.length).map (fun x => ("*", some x)), []) := by
        unfold Utils.leftoverStep
        dsimp only
        cases hl : l.drop names.length with
        | nil =>
          have hc : dcontains v [] = false := rfl
          simp [hc]
        | cons x rest => rfl
      rw [hstep]
      dsimp only
      rw [finalArgs_append_star _ _ _ (finalArgs_zipWith _ l (by rw [hdal]; exact h))]
      dsimp only
      rw [hdal, List.take_append_drop]
      rfl
  · intro h
    constructor
    · unfold Server.check_params
      simp only [Option.isSome_none]
      rw [posLoop_empty_dict_overflow names l 0 (by omega) (by omega)]
    · unfold Utils.check_params
      have hdal : (Utils.defaultArgList ⟨names, dflts, Option.none, kw⟩).length
          = names.length := by
        simp [Utils.defaultArgList]
      rw [walk_empty_dict _ l (by rw [hdal]; omega)]
      dsimp only
      rw [hdal]
      unfold Utils.leftoverStep
      dsimp only
      cases hl : l.drop names.length with
      | nil =>
        have := congrArg List.length hl
        simp at this
        omega
      | cons x rest =>
        rfl

/-- C9 (witness): a one-parameter signature with a collector accepts two
positional values, and without a collector the second value fails the
binding in both binders. -/
theorem positional_collector_arity_w :
    (Server.check_params ⟨["a"], [], some "rest", Option.none⟩
        [PyVal.int 1, PyVal.int 2] [] = .ok ([PyVal.int 1, PyVal.int 2], [], [])
      ∧ Utils.check_params ⟨["a"], [], some "rest", Option.none⟩
        [PyVal.int 1, PyVal.int 2] [] false
        = .ok ([PyVal.int 1, PyVal.int 2], [], [PyVal.int 2]))
    ∧ (Server.check_params ⟨["a"], [], Option.none, Option.none⟩
        [PyVal.int 1, PyVal.int 2] [] = .error .tooManyArguments
      ∧ Utils.check_params ⟨["a"], [], Option.none, Option.none⟩
        [PyVal.int 1, PyVal.int 2] [] false = .error (.tooManyArgs [PyVal.int 2])) :=
  ⟨(positional_collector_arity ["a"] [] "rest" Option.none
      [PyVal.int 1, PyVal.int 2]).1 (by decide),
   (positional_collector_arity ["a"] [] "rest" Option.none
      [PyVal.int 1, PyVal.int 2]).2 (by decide)⟩

/-- Helper: erasing a key only removes entries. -/
theorem derase_mem {k : String} {d : PyDict} {p : String × PyVal} (h : p ∈ derase k d) :
    p ∈ d :=
  List.mem_of_mem_filter h

/-- Helper: the dict component returned by the utils walk only loses
entries. -/
theorem walk_dict_mono (dal : List (String × Option PyVal)) :
    ∀ (l : List PyVal) (d : PyDict), ∀ p ∈ (Utils.walk dal l d).2.2, p ∈ d := by
  induction dal with
  | nil => intro l d p hp; exact hp
  | cons hd rest ih =>
    obtain ⟨name, dflt⟩ := hd
    intro l d p hp
    unfold Utils.walk at hp
    by_cases hc : dcontains name d
    · rw [if_pos hc] at hp
      exact derase_mem (ih l (derase name d) p hp)
    · rw [if_neg hc] at hp
      cases l with
      | nil => exact ih [] d p hp
      | cons v tl => exact ih tl d p hp

/-- Helper: the positional values the utils walk leaves unconsumed are a
suffix of the caller's list (consumption is from the front). -/
theorem walk_leftover_suffix (dal : List (String × Option PyVal)) :
    ∀ (l : List PyVal) (d : PyDict), (Utils.walk dal l d).2.1 <:+ l := by
  induction dal with
  | nil => intro l d; exact List.suffix_rfl
  | cons hd rest ih =>
    obtain ⟨name, dflt⟩ := hd
    intro l d
    unfold Utils.walk
    by_cases hc : dcontains name d
    · rw [if_pos hc]
      exact ih l (derase name d)
    · rw [if_neg hc]
      cases l with
      | nil => exact ih [] d
      | cons v tl => exact (ih tl d).trans (List.suffix_cons v tl)

/-- Helper: the leftover step only removes dict entries. -/
theorem leftoverStep_dict_mono (spec : ArgSpec) (ordered : List (String × Option PyVal))
    (leftover : List PyVal) (d : PyDict) (od : List (String × Option PyVal) × PyDict)
    (h : Utils.leftoverStep spec ordered leftover d = .ok od) :
    ∀ p ∈ od.2, p ∈ d := by
  unfold Utils.leftoverStep at h
  cases hv : spec.varargs with
  | some v =>
    rw [hv] at h
    cases leftover with
    | cons x rest =>
      dsimp only at h
      simp only [Except.ok.injEq] at h
      subst h
      intro p hp
      exact hp
    | nil =>
      dsimp only at h
      by_cases hc : dcontains v d
      · rw [if_pos hc] at h
        cases ht : asTuple ((dlookup v d).getD PyVal.none) with
        | error e => rw [ht] at h; simp at h
        | ok extra =>
          rw [ht] at h
          simp only [Except.ok.injEq] at h
          subst h
          intro p hp
          exact derase_mem hp
      · rw [if_neg hc] at h
        simp only [Except.ok.injEq] at h
        subst h
        intro p hp
        exact hp
  | none =>
    rw [hv] at h
    cases leftover with
    | cons x rest => simp at h
    | nil =>
      dsimp only at h
      simp only [Except.ok.injEq] at h
      subst h
      intro p hp
      exact hp

/-- C6 (amended): binding never touches the declared signature (the
embedding takes it as an immutable value, as `getargspec` output), but it
consumes the caller-supplied containers in place rather than copies: on
success the dispatcher binder has popped *every* entry of the caller's
named mapping (the final dict is empty; its positional list is only read),
and the utils binder leaves a suffix of the caller's positional list (the
consumed prefix is popped in place) and a subset of the named mapping's
entries. -/
theorem binder_container_effects (spec : ArgSpec) (argsList : List PyVal)
    (argsDict : PyDict) :
    (∀ r, Server.check_params spec argsList argsDict = .ok r → r.2.2 = [])
    ∧ (∀ r, Utils.check_params spec argsList argsDict false = .ok r →
        r.2.2 <:+ argsList ∧ ∀ p ∈ r.2.1, p ∈ argsDict) := by
  constructor
  · intro r h
    unfold Server.check_params at h
    cases hp : Server.posLoop spec.args spec.varargs.isSome argsDict argsList 0 with
    | error e => rw [hp] at h; simp at h
    | ok args =>
      rw [hp] at h
      dsimp only at h
      split at h
      · simp at h
      · split at h
        · simp at h
        · rename_i av hav
          split at h
          · simp at h
          · rename_i kv hkv
            split at h
            · rename_i hnil
              simp only [Except.ok.injEq] at h
              subst h
              rfl
            · simp at h
  · intro r h
    unfold Utils.check_params at h
    dsimp only at h
    cases hs : Utils.leftoverStep spec
        (Utils.walk (Utils.defaultArgList spec) argsList argsDict).1
        (Utils.walk (Utils.defaultArgList spec) argsList argsDict).2.1
        (Utils.walk (Utils.defaultArgList spec) argsList argsDict).2.2 with
    | error e => rw [hs] at h; simp at h
    | ok od =>
      rw [hs] at h
      dsimp only at h
      cases hf : Utils.finalArgs false od.1 with
      | error e => rw [hf] at h; simp at h
      | ok fargs =>
        rw [hf] at h
        dsimp only at h
        split at h
        · simp at h
        · simp only [Except.ok.injEq] at h
          subst h
          refine ⟨walk_leftover_suffix _ argsList argsDict, ?_⟩
          intro p hp
          dsimp only at hp
          have hp2 : p ∈ od.2 := by
            by_cases hcv : (false : Bool) = true
            · simp at hcv
            · simpa using hp
          exact walk_dict_mono _ argsList argsDict p
            (leftoverStep_dict_mono spec _ _ _ od hs p hp2)

/-- C6 (witness): the container-effect bounds applied to two concrete
successful bindings. -/
theorem binder_container_effects_w :
    ([] : PyDict) = ([] : PyDict)
    ∧ (([] : List PyVal) <:+ [PyVal.int 7]
        ∧ ∀ p ∈ ([] : PyDict), p ∈ ([] : PyDict)) :=
  ⟨(binder_container_effects ⟨["a"], [PyVal.int 0], Option.none, Option.none⟩ []
      [("a", PyVal.int 5)]).1
      (([], [("a", PyVal.int 5)], []) : List PyVal × PyDict × PyDict) rfl,
   (binder_container_effects ⟨["a"], [], Option.none, Option.none⟩ [PyVal.int 7] []).2
      (([PyVal.int 7], [], []) : List PyVal × PyDict × List PyVal) rfl⟩

/-- C6 (counterexample): the caller's containers are *not* unchanged.  With
signature `(a=0)` and named argument `a=5`, the dispatcher binder succeeds
and the caller's named mapping afterwards is empty — the entry was popped
in place.  With signature `(a)` and positional argument 7, the utils binder
succeeds and the caller's positional list afterwards is empty — the value
was consumed in place. -/
theorem binder_mutates_containers :
    Server.check_params ⟨["a"], [PyVal.int 0], Option.none, Option.none⟩ []
        [("a", PyVal.int 5)] = .ok ([], [("a", PyVal.int 5)], [])
    ∧ Utils.check_params ⟨["a"], [], Option.none, Option.none⟩ [PyVal.int 7] [] false
        = .ok ([PyVal.int 7], [], []) := ⟨rfl, rfl⟩

end LbrySpec
namespace LbrySpec

theorem advance_members (c : Chain) : (Chain.advance c).members = c.members := by
  unfold Chain.advance
  split
  · rename_i h
    cases hq : c.queue with
    | nil => rfl
    | cons j rest =>
      simp [Chain.members, h.2, hq]
  · rfl

theorem advance_owner (c : Chain) : (Chain.advance c).owner = c.owner := by
  unfold Chain.advance
  split
  · cases c.queue <;> rfl
  · rfl

theorem advance_fired (c : Chain) : (Chain.advance c).fired = c.fired := by
  unfold Chain.advance
  split
  · cases c.queue <;> rfl
  · rfl

theorem advance_firedErr (c : Chain) : (Chain.advance c).firedErr = c.firedErr := by
  unfold Chain.advance
  split
  · cases c.queue <;> rfl
  · rfl

theorem advance_ownerRunning (c : Chain) : (Chain.advance c).ownerRunning = c.ownerRunning := by
  unfold Chain.advance
  split
  · cases c.queue <;> rfl
  · rfl

theorem owner_mem_members (c : Chain) : c.owner ∈ c.members := by
  simp [Chain.members]

theorem execs_sub_members (c : Chain) : ∀ x ∈ c.execs, x ∈ c.members := by
  intro x hx
  unfold Chain.execs at hx
  unfold Chain.members
  cases hr : c.running with
  | none =>
    rw [hr] at hx
    cases ho : c.ownerRunning <;> rw [ho] at hx <;> simp at hx <;> simp [hx]
  | some j =>
    rw [hr] at hx
    cases ho : c.ownerRunning <;> rw [ho] at hx <;> simp at hx
    · simp [hx]
    · rcases hx with hx | hx <;> simp [hx]

theorem owners_nodup (l : List Chain) (h : (l.flatMap Chain.members).Nodup) :
    (l.map Chain.owner).Nodup := by
  induction l with
  | nil => simp
  | cons c rest ih =>
    simp only [List.flatMap_cons, List.nodup_append] at h
    obtain ⟨hc, hrest, hdisj⟩ := h
    simp only [List.map_cons, List.nodup_cons]
    refine ⟨?_, ih hrest⟩
    intro hmem
    simp only [List.mem_map] at hmem
    obtain ⟨c2, hc2, heq⟩ := hmem
    exact hdisj (owner_mem_members c)
      (by
        rw [← heq]
        simp only [List.mem_flatMap]
        exact ⟨c2, hc2, owner_mem_members c2⟩)

theorem flatMap_members_map_eq (l : List Chain) (f : Chain → Chain)
    (h : ∀ c ∈ l, (f c).members = c.members) :
    (l.map f).flatMap Chain.members = l.flatMap Chain.members := by
  induction l with
  | nil => rfl
  | cons c rest ih =>
    simp only [List.map_cons, List.flatMap_cons]
    rw [h c (by simp), ih (fun c2 h2 => h c2 (by simp [h2]))]

theorem flatMap_members_map_sublist (l : List Chain) (f : Chain → Chain)
    (h : ∀ c ∈ l, (f c).members.Sublist c.members) :
    ((l.map f).flatMap Chain.members).Sublist (l.flatMap Chain.members) := by
  induction l with
  | nil => exact List.Sublist.refl _
  | cons c rest ih =>
    simp only [List.map_cons, List.flatMap_cons]
    exact (h c (by simp)).append (ih (fun c2 h2 => h c2 (by simp [h2])))

end LbrySpec
namespace LbrySpec

theorem fireChain_members (b : Bool) (a : ℕ) (c : Chain) :
    (fireChain b a c).members = c.members := by
  unfold fireChain
  split
  · rw [advance_members]
    rfl
  · rfl

theorem fireChain_owner (b : Bool) (a : ℕ) (c : Chain) :
    (fireChain b a c).owner = c.owner := by
  unfold fireChain
  split
  · rw [advance_owner]
  · rfl

theorem chainEnd_owner (i : ℕ) (c : Chain) : (chainEnd i c).owner = c.owner := by
  unfold chainEnd
  split
  · rfl
  · split
    · rw [advance_owner]
    · rfl

theorem chainEnd_fired (i : ℕ) (c : Chain) : (chainEnd i c).fired = c.fired := by
  unfold chainEnd
  split
  · rfl
  · split
    · rw [advance_fired]
    · rfl

theorem chainEnd_firedErr (i : ℕ) (c : Chain) : (chainEnd i c).firedErr = c.firedErr := by
  unfold chainEnd
  split
  · rfl
  · split
    · rw [advance_firedErr]
    · rfl

theorem chainEnd_members_sublist (i : ℕ) (c : Chain) :
    (chainEnd i c).members.Sublist c.members := by
  unfold chainEnd
  split
  · exact List.Sublist.refl _
  · split
    · rename_i hnot hr
      rw [advance_members]
      show (Chain.members { c with running := Option.none }).Sublist c.members
      simp only [Chain.members, hr, List.nil_append, List.singleton_append]
      exact List.Sublist.cons₂ _ (List.sublist_cons_self i c.queue)
    · exact List.Sublist.refl _

theorem enqueueChain_id (a i : ℕ) (c : Chain) (h : ¬c.owner = a) :
    enqueueChain a i c = c := by
  unfold enqueueChain
  rw [if_neg h]

theorem enqueueChain_members_eq (a i : ℕ) (c : Chain) (h : c.owner = a) :
    (enqueueChain a i c).members = c.members ++ [i] := by
  unfold enqueueChain
  rw [if_pos h, advance_members]
  show Chain.members { c with queue := c.queue ++ [i] } = c.members ++ [i]
  simp [Chain.members]

theorem map_enqueue_id (rest : List Chain) (a i : ℕ)
    (h : ∀ c ∈ rest, ¬c.owner = a) : rest.map (enqueueChain a i) = rest := by
  induction rest with
  | nil => rfl
  | cons c tl ih =>
    simp only [List.map_cons]
    rw [enqueueChain_id a i c (h c (by simp)), ih (fun c2 h2 => h c2 (by simp [h2]))]

theorem nodup_flatMap_enqueue (l : List Chain) (a i : ℕ)
    (hN : (l.flatMap Chain.members).Nodup)
    (hi : ∀ c ∈ l, i ∉ c.members) :
    ((l.map (enqueueChain a i)).flatMap Chain.members).Nodup
    ∧ ∀ m ∈ (l.map (enqueueChain a i)).flatMap Chain.members,
        m ∈ l.flatMap Chain.members ∨ m = i := by
  have ho := owners_nodup l hN
  induction l with
  | nil => simp
  | cons c rest ih =>
    simp only [List.flatMap_cons, List.nodup_append] at hN
    obtain ⟨hc, hrest, hdisj⟩ := hN
    simp only [List.map_cons, List.nodup_cons] at ho
    obtain ⟨hoc, horest⟩ := ho
    by_cases hca : c.owner = a
    · have hrestne : ∀ c2 ∈ rest, ¬c2.owner = a := by
        intro c2 h2 heq
        exact hoc (by
          simp only [List.mem_map]
          exact ⟨c2, h2, by rw [heq, hca]⟩)
      simp only [List.map_cons, List.flatMap_cons, map_enqueue_id rest a i hrestne,
        enqueueChain_members_eq a i c hca]
      constructor
      · rw [List.nodup_append]
        refine ⟨?_, hrest, ?_⟩
        · rw [List.nodup_append]
          refine ⟨hc, by simp, ?_⟩
          intro x hx hx2
          simp only [List.mem_singleton] at hx2
          subst hx2
          exact hi c (by simp) hx
        · intro x hx hx2
          rw [List.mem_append] at hx
          rcases hx with hx | hx
          · exact hdisj hx hx2
          · simp only [List.mem_singleton] at hx
            subst hx
            simp only [List.mem_flatMap] at hx2
            obtain ⟨c2, hc2, hm⟩ := hx2
            exact hi c2 (by simp [hc2]) hm
      · intro m hm
        simp only [List.mem_append, List.mem_singleton] at hm
        rcases hm with (hm | hm) | hm
        · left; simp only [List.flatMap_cons, List.mem_append]; left; exact hm
        · right; exact hm
        · left; simp only [List.flatMap_cons, List.mem_append]; right; exact hm
    · rw [List.map_cons]
      simp only [List.flatMap_cons]
      rw [enqueueChain_id a i c hca]
      obtain ⟨ihN, ihM⟩ := ih hrest (fun c2 h2 => hi c2 (by simp [h2])) horest
      constructor
      · rw [List.nodup_append]
        refine ⟨hc, ihN, ?_⟩
        intro x hx hx2
        rcases ihM x hx2 with hx2 | hx2
        · exact hdisj hx hx2
        · subst hx2
          exact hi c (by simp) hx
      · intro m hm
        rw [List.mem_append] at hm
        rcases hm with hm | hm
        · left; simp only [List.flatMap_cons, List.mem_append]; left; exact hm
        · rcases ihM m hm with h2 | h2
          · left; simp only [List.flatMap_cons, List.mem_append]; right; exact h2
          · right; exact h2

end LbrySpec
namespace LbrySpec

theorem advance_cases (c : Chain) :
    Chain.advance c = c
    ∨ ∃ j rest, c.fired = true ∧ c.running = Option.none ∧ c.queue = j :: rest
        ∧ Chain.advance c = { c with running := some j, queue := rest } := by
  unfold Chain.advance
  split
  · rename_i h
    cases hq : c.queue with
    | nil => left; rfl
    | cons j rest =>
      right
      exact ⟨j, rest, by simpa using h.1, h.2, rfl, rfl⟩
  · left; rfl

theorem advance_of_not_fired (c : Chain) (h : c.fired = false) : Chain.advance c = c := by
  unfold Chain.advance
  rw [if_neg]
  simp [h]

theorem advance_of_running (c : Chain) (j : ℕ) (h : c.running = some j) :
    Chain.advance c = c := by
  unfold Chain.advance
  rw [if_neg]
  simp [h]

theorem advance_of_empty (c : Chain) (hq : c.queue = []) : Chain.advance c = c := by
  unfold Chain.advance
  split
  · rw [hq]
  · rfl

theorem advance_of_promote (c : Chain) (j : ℕ) (rest : List ℕ) (hf : c.fired = true)
    (hr : c.running = Option.none) (hq : c.queue = j :: rest) :
    Chain.advance c = { c with running := some j, queue := rest } := by
  unfold Chain.advance
  rw [if_pos ⟨by simp [hf], hr⟩, hq]

theorem chainWF_enqueue (lock : Option ℕ) (a i : ℕ) (c : Chain) (hW : chainWF lock c) :
    chainWF lock (enqueueChain a i c) := by
  unfold enqueueChain
  split
  · rename_i hca
    obtain ⟨w1, w2, w3, w4, w5⟩ := hW
    by_cases hf : c.fired = true
    · cases hr : c.running with
      | some j =>
        rw [advance_of_running
          { owner := c.owner, ownerRunning := c.ownerRunning, fired := c.fired,
            firedErr := c.firedErr, running := some j, queue := c.queue ++ [i] } j rfl]
        refine ⟨fun ho => w1 ho, ?_, ?_, fun he => w4 he, ?_⟩
        · intro h2
          exact absurd (show c.fired = false from h2) (by simp [hf])
        · intro h2
          exact absurd (show c.fired = false from h2) (by simp [hf])
        · intro _ hru
          simp at hru
      | none =>
        have hq : c.queue = [] := w5 hf hr
        rw [advance_of_promote
          { owner := c.owner, ownerRunning := c.ownerRunning, fired := c.fired,
            firedErr := c.firedErr, running := Option.none, queue := c.queue ++ [i] }
          i [] hf rfl (by simp [hq])]
        refine ⟨?_, ?_, ?_, ?_, ?_⟩
        · intro ho
          exact absurd (w1 ho) (by simp [hf])
        · intro h2
          simp only at h2
          rw [hf] at h2
          simp at h2
        · intro h2
          simp only at h2
          rw [hf] at h2
          simp at h2
        · intro _
          exact hf
        · intro _ hru
          simp at hru
    · have hf2 : c.fired = false := by simpa using hf
      rw [advance_of_not_fired { c with queue := c.queue ++ [i] } hf2]
      refine ⟨w1, w2, w3, w4, ?_⟩
      intro h2
      simp only at h2
      rw [hf2] at h2
      simp at h2
  · exact hW

end LbrySpec
namespace LbrySpec

theorem chainWF_chainEnd (lock : Option ℕ) (i : ℕ) (c : Chain) (hW : chainWF lock c) :
    chainWF lock (chainEnd i c) := by
  obtain ⟨w1, w2, w3, w4, w5⟩ := hW
  unfold chainEnd
  split
  · refine ⟨fun ho => by simp at ho, w2, w3, w4, w5⟩
  · split
    · rename_i hno hr
      have hf : c.fired = true := by
        by_cases h : c.fired = true
        · exact h
        · exact absurd (w2 (by simpa using h)) (by simp [hr])
      cases hq : c.queue with
      | nil =>
        rw [advance_of_empty
          { owner := c.owner, ownerRunning := c.ownerRunning, fired := c.fired,
            firedErr := c.firedErr, running := Option.none, queue := [] } rfl]
        exact ⟨w1, fun h2 => absurd (show c.fired = false from h2) (by simp [hf]),
          fun h2 => absurd (show c.fired = false from h2) (by simp [hf]),
          w4, fun _ _ => rfl⟩
      | cons j rest =>
        rw [advance_of_promote
          { owner := c.owner, ownerRunning := c.ownerRunning, fired := c.fired,
            firedErr := c.firedErr, running := Option.none, queue := j :: rest }
          j rest hf rfl rfl]
        refine ⟨fun ho => absurd (w1 ho) (by simp [hf]), ?_, ?_, fun _ => hf, ?_⟩
        · intro h2
          exact absurd (show c.fired = false from h2) (by simp [hf])
        · intro h2
          exact absurd (show c.fired = false from h2) (by simp [hf])
        · intro _ hru
          simp at hru
    · exact ⟨w1, w2, w3, w4, w5⟩

theorem advance_queue_sub (c : Chain) : ∀ x ∈ (Chain.advance c).queue, x ∈ c.queue := by
  intro x hx
  rcases advance_cases c with h | ⟨j, rest, _, _, hq, h⟩
  · rw [h] at hx
    exact hx
  · rw [h] at hx
    rw [hq]
    simp only at hx
    simp [hx]

theorem queue_enqueue_sub (a i : ℕ) (c : Chain) :
    ∀ x ∈ (enqueueChain a i c).queue, x ∈ c.queue ∨ x = i := by
  intro x hx
  unfold enqueueChain at hx
  split at hx
  · have := advance_queue_sub _ x hx
    simp only at this
    rcases List.mem_append.mp this with h | h
    · exact Or.inl h
    · simp at h
      exact Or.inr h
  · exact Or.inl hx

theorem queue_chainEnd_sub (i : ℕ) (c : Chain) :
    ∀ x ∈ (chainEnd i c).queue, x ∈ c.queue := by
  intro x hx
  unfold chainEnd at hx
  split at hx
  · exact hx
  · split at hx
    · exact advance_queue_sub
        { owner := c.owner, ownerRunning := c.ownerRunning, fired := c.fired,
          firedErr := c.firedErr, running := Option.none, queue := c.queue } x hx
    · exact hx

theorem queue_fire_sub (b : Bool) (a : ℕ) (c : Chain) :
    ∀ x ∈ (fireChain b a c).queue, x ∈ c.queue := by
  intro x hx
  unfold fireChain at hx
  split at hx
  · exact advance_queue_sub
      { owner := c.owner, ownerRunning := c.ownerRunning, fired := true,
        firedErr := b, running := c.running, queue := c.queue } x hx
  · exact hx

end LbrySpec
namespace LbrySpec

theorem execs_enqueue (lock : Option ℕ) (a i : ℕ) (c : Chain) (hW : chainWF lock c) :
    ∀ x ∈ (enqueueChain a i c).execs, x ∈ c.execs ∨ x = i := by
  obtain ⟨w1, w2, w3, w4, w5⟩ := hW
  intro x hx
  unfold enqueueChain at hx
  split at hx
  · by_cases hf : c.fired = true
    · cases hr : c.running with
      | some j =>
        rw [hr] at hx
        rw [advance_of_running
          { owner := c.owner, ownerRunning := c.ownerRunning, fired := c.fired,
            firedErr := c.firedErr, running := some j, queue := c.queue ++ [i] } j rfl] at hx
        left
        unfold Chain.execs at hx ⊢
        rw [hr]
        exact hx
      | none =>
        have hq : c.queue = [] := w5 hf hr
        rw [hr] at hx
        rw [advance_of_promote
          { owner := c.owner, ownerRunning := c.ownerRunning, fired := c.fired,
            firedErr := c.firedErr, running := Option.none, queue := c.queue ++ [i] }
          i [] hf rfl (by simp [hq])] at hx
        have hor : c.ownerRunning = false := by
          cases ho : c.ownerRunning
          · rfl
          · exact absurd (w1 ho) (by simp [hf])
        unfold Chain.execs at hx
        simp only [hor] at hx
        simp at hx
        exact Or.inr hx
    · have hf2 : c.fired = false := by simpa using hf
      rw [advance_of_not_fired
        { owner := c.owner, ownerRunning := c.ownerRunning, fired := c.fired,
          firedErr := c.firedErr, running := c.running, queue := c.queue ++ [i] } hf2] at hx
      exact Or.inl hx
  · exact Or.inl hx

theorem execs_chainEnd (lock : Option ℕ) (i : ℕ) (c : Chain) (hW : chainWF lock c)
    (hnd : c.members.Nodup) :
    i ∉ (chainEnd i c).execs
    ∧ ∀ x ∈ (chainEnd i c).execs, x ∈ c.execs ∨ x ∈ c.queue := by
  obtain ⟨w1, w2, w3, w4, w5⟩ := hW
  unfold chainEnd
  split
  · rename_i hown
    have hr : c.running = Option.none := w2 (w1 hown.1)
    have hex : Chain.execs
        { owner := c.owner, ownerRunning := false, fired := c.fired,
          firedErr := c.firedErr, running := c.running, queue := c.queue } = [] := by
      unfold Chain.execs
      rw [hr]
      rfl
    rw [hex]
    exact ⟨by simp, by simp⟩
  · split
    · rename_i hno hr
      have hf : c.fired = true := by
        by_cases h : c.fired = true
        · exact h
        · exact absurd (w2 (by simpa using h)) (by simp [hr])
      have hor : c.ownerRunning = false := by
        cases ho : c.ownerRunning
        · rfl
        · exact absurd (w1 ho) (by simp [hf])
      cases hq : c.queue with
      | nil =>
        rw [advance_of_empty
          { owner := c.owner, ownerRunning := c.ownerRunning, fired := c.fired,
            firedErr := c.firedErr, running := Option.none, queue := [] } rfl]
        have hex : Chain.execs
            { owner := c.owner, ownerRunning := c.ownerRunning, fired := c.fired,
              firedErr := c.firedErr, running := Option.none, queue := [] } = [] := by
          unfold Chain.execs
          rw [hor]
          rfl
        rw [hex]
        exact ⟨by simp, by simp⟩
      | cons j rest =>
        rw [advance_of_promote
          { owner := c.owner, ownerRunning := c.ownerRunning, fired := c.fired,
            firedErr := c.firedErr, running := Option.none, queue := j :: rest }
          j rest hf rfl rfl]
        have hex : Chain.execs
            { owner := c.owner, ownerRunning := c.ownerRunning, fired := c.fired,
              firedErr := c.firedErr, running := some j, queue := rest } = [j] := by
          unfold Chain.execs
          rw [hor]
          rfl
        rw [hex]
        constructor
        · intro hmem
          simp only [List.mem_singleton] at hmem
          subst hmem
          unfold Chain.members at hnd
          rw [hr, hq] at hnd
          simp at hnd
        · intro x hx
          simp only [List.mem_singleton] at hx
          subst hx
          exact Or.inr (by simp [hq])
    · rename_i hno hnr
      constructor
      · intro hmem
        unfold Chain.execs at hmem
        rw [List.mem_append] at hmem
        rcases hmem with hm | hm
        · by_cases ho : c.ownerRunning = true
          · rw [ho] at hm
            simp at hm
            exact hno ⟨ho, hm.symm⟩
          · simp only [Bool.not_eq_true] at ho
            rw [ho] at hm
            simp at hm
        · cases hrr : c.running with
          | none => rw [hrr] at hm; simp at hm
          | some j =>
            rw [hrr] at hm
            simp at hm
            subst hm
            exact hnr hrr
      · intro x hx
        exact Or.inl hx

theorem execs_fire (b : Bool) (a : ℕ) (c : Chain) :
    ∀ x ∈ (fireChain b a c).execs, x ∈ c.execs ∨ x ∈ c.queue := by
  intro x hx
  unfold fireChain at hx
  split at hx
  · rcases advance_cases
      { owner := c.owner, ownerRunning := c.ownerRunning, fired := true,
        firedErr := b, running := c.running, queue := c.queue } with h | ⟨j, rest, _, hrn, hqn, h⟩
    · rw [h] at hx
      left
      unfold Chain.execs at hx ⊢
      exact hx
    · rw [h] at hx
      simp only at hrn hqn
      unfold Chain.execs at hx ⊢
      rw [List.mem_append] at hx
      rcases hx with hm | hm
      · left
        rw [List.mem_append]
        exact Or.inl hm
      · simp only at hm
        simp at hm
        subst hm
        right
        rw [hqn]
        simp
  · exact Or.inl hx

end LbrySpec
namespace LbrySpec

theorem members_nodup_of_flatMap (l : List Chain) (hN : (l.flatMap Chain.members).Nodup) :
    ∀ c ∈ l, c.members.Nodup := by
  induction l with
  | nil => simp
  | cons c rest ih =>
    simp only [List.flatMap_cons, List.nodup_append] at hN
    intro c2 hc2
    rcases List.mem_cons.mp hc2 with h | h
    · subst h; exact hN.1
    · exact ih hN.2.1 c2 h

theorem mem_two_chains (l : List Chain) (hN : (l.flatMap Chain.members).Nodup)
    {c1 c2 : Chain} (h1 : c1 ∈ l) (h2 : c2 ∈ l) (x : ℕ)
    (hx1 : x ∈ c1.members) (hx2 : x ∈ c2.members) : c1 = c2 := by
  induction l with
  | nil => simp at h1
  | cons c rest ih =>
    simp only [List.flatMap_cons, List.nodup_append] at hN
    obtain ⟨hc, hrest, hdisj⟩ := hN
    rcases List.mem_cons.mp h1 with e1 | e1 <;> rcases List.mem_cons.mp h2 with e2 | e2
    · rw [e1, e2]
    · subst e1
      exact absurd (by
        simp only [List.mem_flatMap]
        exact ⟨c2, e2, hx2⟩) (hdisj hx1)
    · subst e2
      exact absurd (by
        simp only [List.mem_flatMap]
        exact ⟨c1, e1, hx1⟩) (hdisj hx2)
    · exact ih hrest e1 e2

theorem exec_not_queued (l : List Chain) (hN : (l.flatMap Chain.members).Nodup) (x : ℕ)
    (hx : ∃ c, c ∈ l ∧ x ∈ c.execs) : ∀ c ∈ l, x ∉ c.queue := by
  obtain ⟨c1, hc1, hex⟩ := hx
  intro c2 hc2 hq
  have hm1 : x ∈ c1.members := execs_sub_members c1 x hex
  have hm2 : x ∈ c2.members := by
    unfold Chain.members
    simp only [List.mem_cons, List.mem_append]
    right
    right
    exact hq
  have he : c1 = c2 := mem_two_chains l hN hc1 hc2 x hm1 hm2
  subst he
  -- x is executing (owner or running) and also queued in the same chain:
  -- contradicts the chain's member list being duplicate-free
  have hnd : c1.members.Nodup := members_nodup_of_flatMap l hN c1 hc1
  unfold Chain.members at hnd
  unfold Chain.execs at hex
  rw [List.mem_append] at hex
  rcases hex with hm | hm
  · have hxo : x = c1.owner := by
      by_cases ho : c1.ownerRunning = true
      · rw [ho] at hm
        simpa using hm
      · simp only [Bool.not_eq_true] at ho
        rw [ho] at hm
        simp at hm
    subst hxo
    simp only [List.nodup_cons] at hnd
    exact hnd.1 (by
      rw [List.mem_append]
      exact Or.inr hq)
  · cases hr : c1.running with
    | none => rw [hr] at hm; simp at hm
    | some j =>
      rw [hr] at hm
      simp only [List.mem_singleton] at hm
      subst hm
      simp only [List.nodup_cons, hr] at hnd
      have := hnd.2
      simp only [List.singleton_append, List.nodup_cons] at this
      exact this.1 hq

theorem execSet_sub_members (st : SerState) :
    ∀ x ∈ st.execSet, x ∈ st.chains.flatMap Chain.members := by
  intro x hx
  unfold SerState.execSet at hx
  simp only [List.mem_flatMap] at hx ⊢
  obtain ⟨c, hc, hex⟩ := hx
  exact ⟨c, hc, execs_sub_members c x hex⟩

theorem owner_unique (l : List Chain) (hN : (l.flatMap Chain.members).Nodup)
    {c1 c2 : Chain} (h1 : c1 ∈ l) (h2 : c2 ∈ l) (he : c1.owner = c2.owner) : c1 = c2 :=
  mem_two_chains l hN h1 h2 c1.owner (owner_mem_members c1) (he ▸ owner_mem_members c2)

theorem fireChain_id (b : Bool) (a : ℕ) (c : Chain) (h : ¬c.owner = a) :
    fireChain b a c = c := by
  unfold fireChain
  rw [if_neg h]

theorem fireChain_ownerRunning (b : Bool) (a : ℕ) (c : Chain) :
    (fireChain b a c).ownerRunning = c.ownerRunning := by
  unfold fireChain
  split
  · rw [advance_ownerRunning]
  · rfl

theorem fireChain_fired_of_owner (b : Bool) (a : ℕ) (c : Chain) (h : c.owner = a) :
    (fireChain b a c).fired = true := by
  unfold fireChain
  rw [if_pos h, advance_fired]

theorem enqueueChain_owner (a i : ℕ) (c : Chain) : (enqueueChain a i c).owner = c.owner := by
  unfold enqueueChain
  split
  · rw [advance_owner]
  · rfl

end LbrySpec
namespace LbrySpec

theorem inv_arrive (st st2 : SerState) (i : ℕ) (hInv : SerInv st)
    (h : step st (.arrive i) = some st2) : SerInv st2 := by
  obtain ⟨h1, h2, h3, h4, h5, h6, h7⟩ := hInv
  unfold step at h
  dsimp only at h
  by_cases hi : i ∈ st.arrived
  · rw [if_pos hi] at h
    simp at h
  · rw [if_neg hi] at h
    have hfresh : ∀ c ∈ st.chains, i ∉ c.members := by
      intro c hc hm
      exact hi (h2 i (by
        simp only [List.mem_flatMap]
        exact ⟨c, hc, hm⟩))
    cases hlk : st.callLock with
    | none =>
      rw [hlk] at h
      simp only [Option.some.injEq] at h
      subst h
      have hmembers : ((st.chains ++ [newChain i]).flatMap Chain.members)
          = st.chains.flatMap Chain.members ++ [i] := by
        rw [List.flatMap_append]
        rfl
      refine ⟨?_, ?_, ?_, ?_, ?_, ?_, ?_⟩
      · rw [hmembers, List.nodup_append]
        refine ⟨h1, by simp, ?_⟩
        intro x hx hx2
        simp only [List.mem_singleton] at hx2
        subst hx2
        simp only [List.mem_flatMap] at hx
        obtain ⟨c, hc, hm⟩ := hx
        exact hfresh c hc hm
      · intro m hm
        rw [hmembers, List.mem_append] at hm
        simp only [List.mem_append]
        rcases hm with hm | hm
        · exact Or.inl (h2 m hm)
        · exact Or.inr hm
      · intro c hc
        rcases List.mem_append.mp hc with hc | hc
        · obtain ⟨w1, w2, w3, w4, w5⟩ := h3 c hc
          refine ⟨w1, w2, ?_, w4, w5⟩
          intro hf
          exact absurd (hlk ▸ w3 hf) (by simp)
        · simp only [List.mem_singleton] at hc
          subst hc
          exact ⟨fun _ => rfl, fun _ => rfl, fun _ => rfl, fun he => by simp [newChain] at he,
            fun hf _ => by simp [newChain] at hf⟩
      · intro x hx
        simp only [Option.some.injEq] at hx
        subst hx
        exact ⟨newChain i, by simp, rfl⟩
      · intro x hx
        have hxa : x ∈ st.arrived := h7 x hx
        have hxne : x ≠ i := fun he => hi (he ▸ hxa)
        intro hex
        unfold SerState.execSet at hex
        simp only [List.flatMap_append] at hex
        rw [List.mem_append] at hex
        rcases hex with hex | hex
        · exact h5 x hx hex
        · simp only [List.flatMap_cons, List.flatMap_nil] at hex
          have : x = i := by
            simpa [newChain, Chain.execs] using hex
          exact hxne this
      · intro x hx c hc
        rcases List.mem_append.mp hc with hc | hc
        · exact h6 x hx c hc
        · simp only [List.mem_singleton] at hc
          subst hc
          simp [newChain]
      · intro x hx
        simp only [List.mem_append]
        exact Or.inl (h7 x hx)
    | some a =>
      rw [hlk] at h
      simp only [Option.some.injEq] at h
      subst h
      obtain ⟨hN2, hMem2⟩ := nodup_flatMap_enqueue st.chains a i h1 hfresh
      refine ⟨hN2, ?_, ?_, ?_, ?_, ?_, ?_⟩
      · intro m hm
        simp only [List.mem_append]
        rcases hMem2 m hm with hm | hm
        · exact Or.inl (h2 m hm)
        · exact Or.inr (by simp [hm])
      · intro c2 hc2
        simp only [List.mem_map] at hc2
        obtain ⟨c, hc, he⟩ := hc2
        subst he
        exact chainWF_enqueue (some a) a i c (hlk ▸ h3 c hc)
      · intro x hx
        obtain ⟨c, hc, he⟩ := h4 x (by rw [hlk]; exact hx)
        exact ⟨enqueueChain a i c, by
          simp only [List.mem_map]
          exact ⟨c, hc, rfl⟩, by rw [enqueueChain_owner]; exact he⟩
      · intro x hx
        have hxa : x ∈ st.arrived := h7 x hx
        have hxne : x ≠ i := fun he => hi (he ▸ hxa)
        intro hex
        unfold SerState.execSet at hex
        simp only [List.mem_flatMap, List.mem_map] at hex
        obtain ⟨c2, ⟨c, hc, he⟩, hexm⟩ := hex
        subst he
        rcases execs_enqueue st.callLock a i c (h3 c hc) x hexm with h | h2
        · exact h5 x hx (by
            unfold SerState.execSet
            simp only [List.mem_flatMap]
            exact ⟨c, hc, h⟩)
        · exact hxne h2
      · intro x hx c2 hc2
        simp only [List.mem_map] at hc2
        obtain ⟨c, hc, he⟩ := hc2
        subst he
        intro hq
        rcases queue_enqueue_sub a i c x hq with h | h2
        · exact h6 x hx c hc h
        · exact hi (h2 ▸ h7 x hx)
      · intro x hx
        simp only [List.mem_append]
        exact Or.inl (h7 x hx)

end LbrySpec
namespace LbrySpec

theorem inv_execEnd (st st2 : SerState) (i : ℕ) (hInv : SerInv st)
    (h : step st (.execEnd i) = some st2) : SerInv st2 := by
  obtain ⟨h1, h2, h3, h4, h5, h6, h7⟩ := hInv
  unfold step at h
  dsimp only at h
  by_cases hi : i ∈ st.execSet
  · rw [if_pos hi] at h
    simp only [Option.some.injEq] at h
    subst h
    have hsub : ((st.chains.map (chainEnd i)).flatMap Chain.members).Sublist
        (st.chains.flatMap Chain.members) :=
      flatMap_members_map_sublist st.chains (chainEnd i)
        (fun c _ => chainEnd_members_sublist i c)
    refine ⟨?_, ?_, ?_, ?_, ?_, ?_, ?_⟩
    · exact h1.sublist hsub
    · intro m hm
      exact h2 m (hsub.subset hm)
    · intro c2 hc2
      simp only [List.mem_map] at hc2
      obtain ⟨c, hc, he⟩ := hc2
      subst he
      exact chainWF_chainEnd st.callLock i c (h3 c hc)
    · intro x hx
      obtain ⟨c, hc, he⟩ := h4 x hx
      exact ⟨chainEnd i c, by
        simp only [List.mem_map]
        exact ⟨c, hc, rfl⟩, by rw [chainEnd_owner]; exact he⟩
    · intro x hx hex
      unfold SerState.execSet at hex
      simp only [List.mem_flatMap, List.mem_map] at hex
      obtain ⟨c2, ⟨c, hc, he⟩, hexm⟩ := hex
      subst he
      obtain ⟨hnoti, hchar⟩ :=
        execs_chainEnd st.callLock i c (h3 c hc) (members_nodup_of_flatMap st.chains h1 c hc)
      rcases List.mem_append.mp hx with hx | hx
      · rcases hchar x hexm with hh | hh
        · exact h5 x hx (by
            unfold SerState.execSet
            simp only [List.mem_flatMap]
            exact ⟨c, hc, hh⟩)
        · exact h6 x hx c hc hh
      · simp only [List.mem_singleton] at hx
        subst hx
        exact hnoti hexm
    · intro x hx c2 hc2
      simp only [List.mem_map] at hc2
      obtain ⟨c, hc, he⟩ := hc2
      subst he
      intro hq
      have hq2 : x ∈ c.queue := queue_chainEnd_sub i c x hq
      rcases List.mem_append.mp hx with hx | hx
      · exact h6 x hx c hc hq2
      · simp only [List.mem_singleton] at hx
        subst hx
        exact exec_not_queued st.chains h1 x (by
          unfold SerState.execSet at hi
          simp only [List.mem_flatMap] at hi
          exact hi) c hc hq2
    · intro x hx
      rcases List.mem_append.mp hx with hx | hx
      · exact h7 x hx
      · simp only [List.mem_singleton] at hx
        subst hx
        exact h2 x (execSet_sub_members st x hi)
  · rw [if_neg hi] at h
    simp at h

end LbrySpec
namespace LbrySpec

theorem fireChain_of_owner_none_queue (a : ℕ) (b : Bool) (c : Chain) (hca : c.owner = a)
    (hr : c.running = Option.none) (hq : c.queue = []) :
    fireChain b a c
      = { owner := c.owner, ownerRunning := c.ownerRunning, fired := true,
          firedErr := b, running := Option.none, queue := [] } := by
  unfold fireChain
  rw [if_pos hca]
  rw [show ({ c with fired := true, firedErr := b } : Chain)
      = { owner := c.owner, ownerRunning := c.ownerRunning, fired := true,
          firedErr := b, running := Option.none, queue := [] } from by
    rw [← hr, ← hq]]
  exact advance_of_empty _ rfl

theorem fireChain_of_owner_promote (a : ℕ) (b : Bool) (c : Chain) (j : ℕ) (rest : List ℕ)
    (hca : c.owner = a) (hr : c.running = Option.none) (hq : c.queue = j :: rest) :
    fireChain b a c
      = { owner := c.owner, ownerRunning := c.ownerRunning, fired := true,
          firedErr := b, running := some j, queue := rest } := by
  unfold fireChain
  rw [if_pos hca]
  rw [show ({ c with fired := true, firedErr := b } : Chain)
      = { owner := c.owner, ownerRunning := c.ownerRunning, fired := true,
          firedErr := b, running := Option.none, queue := j :: rest } from by
    rw [← hr, ← hq]]
  exact advance_of_promote _ j rest rfl rfl rfl

theorem chainWF_fire_owner (lock2 : Option ℕ) (a : ℕ) (b : Bool) (c : Chain)
    (hca : c.owner = a) (hcor : c.ownerRunning = false) (hr : c.running = Option.none) :
    chainWF lock2 (fireChain b a c) := by
  cases hq : c.queue with
  | nil =>
    rw [fireChain_of_owner_none_queue a b c hca hr hq]
    exact ⟨fun ho => by rw [hcor] at ho; simp at ho,
      fun h2 => by simp at h2, fun h2 => by simp at h2, fun _ => rfl, fun _ _ => rfl⟩
  | cons j rest =>
    rw [fireChain_of_owner_promote a b c j rest hca hr hq]
    exact ⟨fun ho => by rw [hcor] at ho; simp at ho,
      fun h2 => by simp at h2, fun h2 => by simp at h2, fun _ => rfl,
      fun _ hru => by simp at hru⟩

theorem inv_finishOk (st st2 : SerState) (a : ℕ) (hInv : SerInv st)
    (h : step st (.finishOk a) = some st2) : SerInv st2 := by
  obtain ⟨h1, h2, h3, h4, h5, h6, h7⟩ := hInv
  unfold step at h
  dsimp only at h
  cases hfind : List.find? (fun c => c.owner == a) st.chains with
  | none =>
    rw [hfind] at h
    dsimp only at h
    by_cases he : a ∈ st.ended
    · rw [if_pos he] at h
      simp only [Option.some.injEq] at h
      subst h
      exact ⟨h1, h2, h3, h4, h5, h6, h7⟩
    · rw [if_neg he] at h
      simp at h
  | some c =>
    rw [hfind] at h
    dsimp only at h
    have hc : c ∈ st.chains := List.mem_of_find?_eq_some hfind
    have hca : c.owner = a := by
      have := List.find?_some hfind
      simpa using this
    split at h
    · rename_i hguard
      obtain ⟨hgf, hgo⟩ := hguard
      have hcf : c.fired = false := by simpa using hgf
      have hcor : c.ownerRunning = false := by simpa using hgo
      have hrun : c.running = Option.none := (h3 c hc).2.1 hcf
      have hlocka : st.callLock = some a := by
        rw [← hca]
        exact (h3 c hc).2.2.1 hcf
      simp only [Option.some.injEq] at h
      subst h
      have hlock2 : (if st.callLock = some a then Option.none else st.callLock)
          = Option.none := by
        rw [hlocka]
        simp
      have hmeq : ((st.chains.map (fireChain false a)).flatMap Chain.members)
          = st.chains.flatMap Chain.members :=
        flatMap_members_map_eq st.chains (fireChain false a)
          (fun c2 _ => fireChain_members false a c2)
      refine ⟨?_, ?_, ?_, ?_, ?_, ?_, ?_⟩
      · rw [hmeq]; exact h1
      · intro m hm
        rw [hmeq] at hm
        exact h2 m hm
      · intro c2' hc2'
        simp only [List.mem_map] at hc2'
        obtain ⟨c2, hc2, he2⟩ := hc2'
        subst he2
        by_cases hoa : c2.owner = a
        · have he3 : c2 = c := owner_unique st.chains h1 hc2 hc (by rw [hoa, hca])
          subst he3
          exact chainWF_fire_owner _ a false c2 hoa hcor hrun
        · rw [fireChain_id false a c2 hoa]
          obtain ⟨w1, w2, w3, w4, w5⟩ := h3 c2 hc2
          refine ⟨w1, w2, ?_, w4, w5⟩
          intro hf2
          exact absurd (by
            have := w3 hf2
            rw [hlocka] at this
            simpa using this.symm) hoa
      · intro x hx
        rw [hlock2] at hx
        simp at hx
      · intro x hx hex
        unfold SerState.execSet at hex
        simp only [List.mem_flatMap, List.mem_map] at hex
        obtain ⟨c2', ⟨c2, hc2, he2⟩, hexm⟩ := hex
        subst he2
        rcases execs_fire false a c2 x hexm with hh | hh
        · exact h5 x hx (by
            unfold SerState.execSet
            simp only [List.mem_flatMap]
            exact ⟨c2, hc2, hh⟩)
        · exact h6 x hx c2 hc2 hh
      · intro x hx c2' hc2'
        simp only [List.mem_map] at hc2'
        obtain ⟨c2, hc2, he2⟩ := hc2'
        subst he2
        intro hq
        exact h6 x hx c2 hc2 (queue_fire_sub false a c2 x hq)
      · exact h7
    · simp at h

theorem inv_finishErr (st st2 : SerState) (a : ℕ) (hInv : SerInv st)
    (h : step st (.finishErr a) = some st2) : SerInv st2 := by
  obtain ⟨h1, h2, h3, h4, h5, h6, h7⟩ := hInv
  unfold step at h
  dsimp only at h
  cases hfind : List.find? (fun c => c.owner == a) st.chains with
  | none =>
    rw [hfind] at h
    dsimp only at h
    by_cases he : a ∈ st.ended
    · rw [if_pos he] at h
      simp only [Option.some.injEq] at h
      subst h
      exact ⟨h1, h2, h3, h4, h5, h6, h7⟩
    · rw [if_neg he] at h
      simp at h
  | some c =>
    rw [hfind] at h
    dsimp only at h
    have hc : c ∈ st.chains := List.mem_of_find?_eq_some hfind
    have hca : c.owner = a := by
      have := List.find?_some hfind
      simpa using this
    split at h
    · rename_i hguard
      obtain ⟨hgf, hgo⟩ := hguard
      have hcf : c.fired = false := by simpa using hgf
      have hcor : c.ownerRunning = false := by simpa using hgo
      have hrun : c.running = Option.none := (h3 c hc).2.1 hcf
      have hlocka : st.callLock = some a := by
        rw [← hca]
        exact (h3 c hc).2.2.1 hcf
      simp only [Option.some.injEq] at h
      subst h
      have hmeq : ((st.chains.map (fireChain true a)).flatMap Chain.members)
          = st.chains.flatMap Chain.members :=
        flatMap_members_map_eq st.chains (fireChain true a)
          (fun c2 _ => fireChain_members true a c2)
      refine ⟨?_, ?_, ?_, ?_, ?_, ?_, ?_⟩
      · rw [hmeq]; exact h1
      · intro m hm
        rw [hmeq] at hm
        exact h2 m hm
      · intro c2' hc2'
        simp only [List.mem_map] at hc2'
        obtain ⟨c2, hc2, he2⟩ := hc2'
        subst he2
        by_cases hoa : c2.owner = a
        · have he3 : c2 = c := owner_unique st.chains h1 hc2 hc (by rw [hoa, hca])
          subst he3
          exact chainWF_fire_owner _ a true c2 hoa hcor hrun
        · rw [fireChain_id true a c2 hoa]
          obtain ⟨w1, w2, w3, w4, w5⟩ := h3 c2 hc2
          refine ⟨w1, w2, ?_, w4, w5⟩
          intro hf2
          exact absurd (by
            have := w3 hf2
            rw [hlocka] at this
            simpa using this.symm) hoa
      · intro x hx
        obtain ⟨c2, hc2, he2⟩ := h4 x hx
        exact ⟨fireChain true a c2, by
          simp only [List.mem_map]
          exact ⟨c2, hc2, rfl⟩, by rw [fireChain_owner]; exact he2⟩
      · intro x hx hex
        unfold SerState.execSet at hex
        simp only [List.mem_flatMap, List.mem_map] at hex
        obtain ⟨c2', ⟨c2, hc2, he2⟩, hexm⟩ := hex
        subst he2
        rcases execs_fire true a c2 x hexm with hh | hh
        · exact h5 x hx (by
            unfold SerState.execSet
            simp only [List.mem_flatMap]
            exact ⟨c2, hc2, hh⟩)
        · exact h6 x hx c2 hc2 hh
      · intro x hx c2' hc2'
        simp only [List.mem_map] at hc2'
        obtain ⟨c2, hc2, he2⟩ := hc2'
        subst he2
        intro hq
        exact h6 x hx c2 hc2 (queue_fire_sub true a c2 x hq)
      · exact h7
    · simp at h

theorem step_inv (st st2 : SerState) (ev : Ev) (hInv : SerInv st)
    (h : step st ev = some st2) : SerInv st2 := by
  cases ev with
  | arrive i => exact inv_arrive st st2 i hInv h
  | execEnd i => exact inv_execEnd st st2 i hInv h
  | finishOk a => exact inv_finishOk st st2 a hInv h
  | finishErr a => exact inv_finishErr st st2 a hInv h

end LbrySpec
namespace LbrySpec

theorem initSer_inv : SerInv initSer := by
  refine ⟨by simp [initSer], ?_, ?_, ?_, ?_, ?_, ?_⟩ <;> simp [initSer]

theorem foldlM_inv (evs : List Ev) :
    ∀ (s0 st : SerState), SerInv s0 → List.foldlM step s0 evs = some st → SerInv st := by
  induction evs with
  | nil =>
    intro s0 st h0 h
    simp only [List.foldlM_nil, Option.pure_def, Option.some.injEq] at h
    subst h
    exact h0
  | cons e rest ih =>
    intro s0 st h0 h
    rw [List.foldlM_cons] at h
    cases hs : step s0 e with
    | none => rw [hs] at h; simp at h
    | some s1 =>
      rw [hs] at h
      exact ih s1 st (step_inv s0 s1 e h0 hs) h

theorem runSer_inv (evs : List Ev) (st : SerState) (h : runSer evs = some st) : SerInv st :=
  foldlM_inv evs initSer st initSer_inv h

theorem step_arrived (s s2 : SerState) (e : Ev) (h : step s e = some s2) :
    ∀ i ∈ s2.arrived, i ∈ s.arrived ∨ e = Ev.arrive i := by
  intro i hi
  cases e with
  | arrive j =>
    unfold step at h
    dsimp only at h
    by_cases hj : j ∈ s.arrived
    · rw [if_pos hj] at h; simp at h
    · rw [if_neg hj] at h
      cases hlk : s.callLock with
      | none =>
        rw [hlk] at h
        simp only [Option.some.injEq] at h
        subst h
        rcases List.mem_append.mp hi with hh | hh
        · exact Or.inl hh
        · simp only [List.mem_singleton] at hh
          subst hh
          exact Or.inr rfl
      | some a =>
        rw [hlk] at h
        simp only [Option.some.injEq] at h
        subst h
        rcases List.mem_append.mp hi with hh | hh
        · exact Or.inl hh
        · simp only [List.mem_singleton] at hh
          subst hh
          exact Or.inr rfl
  | execEnd j =>
    unfold step at h
    dsimp only at h
    split at h
    · simp only [Option.some.injEq] at h
      subst h
      exact Or.inl hi
    · simp at h
  | finishOk a =>
    unfold step at h
    dsimp only at h
    split at h
    · split at h
      · simp only [Option.some.injEq] at h
        subst h
        exact Or.inl hi
      · simp at h
    · split at h
      · simp only [Option.some.injEq] at h
        subst h
        exact Or.inl hi
      · simp at h
  | finishErr a =>
    unfold step at h
    dsimp only at h
    split at h
    · split at h
      · simp only [Option.some.injEq] at h
        subst h
        exact Or.inl hi
      · simp at h
    · split at h
      · simp only [Option.some.injEq] at h
        subst h
        exact Or.inl hi
      · simp at h

theorem foldlM_arrived (evs : List Ev) :
    ∀ (s0 st : SerState), List.foldlM step s0 evs = some st →
      ∀ i ∈ st.arrived, i ∈ s0.arrived ∨ Ev.arrive i ∈ evs := by
  induction evs with
  | nil =>
    intro s0 st h i hi
    simp only [List.foldlM_nil, Option.pure_def, Option.some.injEq] at h
    subst h
    exact Or.inl hi
  | cons e rest ih =>
    intro s0 st h i hi
    rw [List.foldlM_cons] at h
    cases hs : step s0 e with
    | none => rw [hs] at h; simp at h
    | some s1 =>
      rw [hs] at h
      rcases ih s1 st h i hi with hh | hh
      · rcases step_arrived s0 s1 e hs i hh with h2 | h2
        · exact Or.inl h2
        · subst h2
          exact Or.inr (by simp)
      · exact Or.inr (by simp [hh])

theorem runSer_arrived (evs : List Ev) (st : SerState) (h : runSer evs = some st) :
    ∀ i ∈ st.arrived, Ev.arrive i ∈ evs := by
  intro i hi
  rcases foldlM_arrived evs initSer st h i hi with hh | hh
  · simp [initSer] at hh
  · exact hh

theorem exec_cases (c : Chain) (x : ℕ) (hx : x ∈ c.execs) :
    (c.ownerRunning = true ∧ x = c.owner) ∨ c.running = some x := by
  unfold Chain.execs at hx
  rw [List.mem_append] at hx
  rcases hx with hm | hm
  · by_cases ho : c.ownerRunning = true
    · rw [ho] at hm
      simp only [if_true, List.mem_singleton] at hm
      exact Or.inl ⟨ho, hm⟩
    · simp only [Bool.not_eq_true] at ho
      rw [ho] at hm
      simp at hm
  · cases hr : c.running with
    | none => rw [hr] at hm; simp at hm
    | some j =>
      rw [hr] at hm
      simp only [List.mem_singleton] at hm
      subst hm
      exact Or.inr rfl

theorem no_two_exec (st : SerState) (hInv : SerInv st)
    (harr : ∀ x ∈ st.arrived, x = 1 ∨ x = 2) :
    ¬(1 ∈ st.execSet ∧ 2 ∈ st.execSet) := by
  obtain ⟨h1, h2, h3, h4, h5, h6, h7⟩ := hInv
  rintro ⟨he1, he2⟩
  unfold SerState.execSet at he1 he2
  simp only [List.mem_flatMap] at he1 he2
  obtain ⟨c1, hc1, hx1⟩ := he1
  obtain ⟨c2, hc2, hx2⟩ := he2
  have hmem1 : (1 : ℕ) ∈ c1.members := execs_sub_members c1 1 hx1
  have hmem2 : (2 : ℕ) ∈ c2.members := execs_sub_members c2 2 hx2
  have howner_arr : ∀ c, c ∈ st.chains → c.owner = 1 ∨ c.owner = 2 := by
    intro c hc
    exact harr c.owner (h2 c.owner (by
      simp only [List.mem_flatMap]
      exact ⟨c, hc, owner_mem_members c⟩))
  rcases exec_cases c1 1 hx1 with ⟨ho1, he1⟩ | hr1 <;>
    rcases exec_cases c2 2 hx2 with ⟨ho2, he2⟩ | hr2
  · -- both owners running: both chains unfired, both own the lock
    have hf1 : c1.fired = false := (h3 c1 hc1).1 ho1
    have hf2 : c2.fired = false := (h3 c2 hc2).1 ho2
    have hl1 := (h3 c1 hc1).2.2.1 hf1
    have hl2 := (h3 c2 hc2).2.2.1 hf2
    have hoo : c1.owner = c2.owner := by
      have := hl1.symm.trans hl2
      simpa using this
    have : c1 = c2 := owner_unique st.chains h1 hc1 hc2 hoo
    subst this
    have h12 : (1 : ℕ) = 2 := he1.trans he2.symm
    simp at h12
  · -- 1 is a running owner, 2 runs on a fired chain
    rcases howner_arr c2 hc2 with ho | ho
    · have : c1 = c2 := owner_unique st.chains h1 hc1 hc2 (by rw [← he1, ho])
      subst this
      have hf1 : c1.fired = false := (h3 c1 hc1).1 ho1
      exact absurd ((h3 c1 hc1).2.1 hf1) (by simp [hr2])
    · have hnd2 : c2.members.Nodup := members_nodup_of_flatMap st.chains h1 c2 hc2
      unfold Chain.members at hnd2
      rw [hr2, ho] at hnd2
      simp at hnd2
  · -- symmetric
    rcases howner_arr c1 hc1 with ho | ho
    · have hnd1 : c1.members.Nodup := members_nodup_of_flatMap st.chains h1 c1 hc1
      unfold Chain.members at hnd1
      rw [hr1, ho] at hnd1
      simp at hnd1
    · have : c2 = c1 := owner_unique st.chains h1 hc2 hc1 (by rw [← he2, ho])
      subst this
      have hf2 : c2.fired = false := (h3 c2 hc2).1 ho2
      exact absurd ((h3 c2 hc2).2.1 hf2) (by simp [hr1])
  · -- both running on fired chains
    have hnd1 : c1.members.Nodup := members_nodup_of_flatMap st.chains h1 c1 hc1
    have hnd2 : c2.members.Nodup := members_nodup_of_flatMap st.chains h1 c2 hc2
    have ho1 : c1.owner = 2 := by
      rcases howner_arr c1 hc1 with ho | ho
      · exfalso
        unfold Chain.members at hnd1
        rw [hr1, ho] at hnd1
        simp at hnd1
      · exact ho
    have ho2 : c2.owner = 1 := by
      rcases howner_arr c2 hc2 with ho | ho
      · exact ho
      · exfalso
        unfold Chain.members at hnd2
        rw [hr2, ho] at hnd2
        simp at hnd2
    have : c1 = c2 := mem_two_chains st.chains h1 hc1 hc2 2
      (by rw [← ho1]; exact owner_mem_members c1) hmem2
    subst this
    rw [ho1] at ho2
    simp at ho2

end LbrySpec
namespace LbrySpec

theorem all_eq_single (l : List ℕ) (v : ℕ) (hnd : l.Nodup) (hall : ∀ x ∈ l, x = v)
    (hv : v ∈ l) : l = [v] := by
  cases l with
  | nil => simp at hv
  | cons a tl =>
    have ha : a = v := hall a (by simp)
    subst ha
    cases tl with
    | nil => rfl
    | cons b tl2 =>
      have hb : b = a := hall b (by simp)
      subst hb
      simp at hnd

theorem chains_single (l : List Chain) (hN : (l.flatMap Chain.members).Nodup) (c : Chain)
    (hm : c ∈ l) (hall : ∀ x ∈ l, x = c) : l = [c] := by
  cases l with
  | nil => simp at hm
  | cons a tl =>
    have ha : a = c := hall a (by simp)
    subst ha
    cases tl with
    | nil => rfl
    | cons b tl2 =>
      have hb : b = a := hall b (by simp)
      subst hb
      exfalso
      simp only [List.flatMap_cons, List.nodup_append] at hN
      exact hN.2.2 (owner_mem_members b) (by
        rw [List.mem_append]
        exact Or.inl (owner_mem_members b))

theorem mem_members_of_queue (c : Chain) (x : ℕ) (hx : x ∈ c.queue) : x ∈ c.members := by
  unfold Chain.members
  simp only [List.mem_cons, List.mem_append]
  exact Or.inr (Or.inr hx)

theorem mem_members_of_running (c : Chain) (x : ℕ) (hx : c.running = some x) :
    x ∈ c.members := by
  unfold Chain.members
  rw [hx]
  simp

theorem three_establish (stP stD : SerState) (hInv : SerInv stP)
    (harr : ∀ x ∈ stP.arrived, x = 1 ∨ x = 2 ∨ x = 3)
    (hwait : ∃ c, c ∈ stP.chains ∧ 2 ∈ c.queue)
    (h : step stP (.arrive 3) = some stD) : ThreePhase stD := by
  obtain ⟨h1, h2, h3, h4, h5, h6, h7⟩ := hInv
  obtain ⟨c, hc, hq2⟩ := hwait
  unfold step at h
  dsimp only at h
  by_cases h3a : 3 ∈ stP.arrived
  · rw [if_pos h3a] at h
    simp at h
  rw [if_neg h3a] at h
  have hmem2 : (2 : ℕ) ∈ c.members := mem_members_of_queue c 2 hq2
  have hchainmem : ∀ x ∈ c.members, x ∈ stP.arrived := fun x hx =>
    h2 x (by
      simp only [List.mem_flatMap]
      exact ⟨c, hc, hx⟩)
  have harr2 : (2 : ℕ) ∈ stP.arrived := hchainmem 2 hmem2
  have hndc : c.members.Nodup := members_nodup_of_flatMap _ h1 c hc
  have hown_arr : c.owner ∈ stP.arrived := hchainmem c.owner (owner_mem_members c)
  have ho3 : c.owner ≠ 3 := fun he => h3a (he ▸ hown_arr)
  have ho2 : c.owner ≠ 2 := by
    intro he
    unfold Chain.members at hndc
    simp only [List.nodup_cons] at hndc
    exact hndc.1 (by
      rw [List.mem_append]
      exact Or.inr (he ▸ hq2))
  have ho1 : c.owner = 1 := by
    rcases harr _ hown_arr with hh | hh | hh
    · exact hh
    · exact absurd hh ho2
    · exact absurd hh ho3
  have hqall : ∀ x ∈ c.queue, x = 2 := by
    intro x hx
    rcases harr x (hchainmem x (mem_members_of_queue c x hx)) with hh | hh | hh
    · exfalso
      unfold Chain.members at hndc
      simp only [List.nodup_cons] at hndc
      exact hndc.1 (by
        rw [List.mem_append]
        exact Or.inr (by rw [ho1, ← hh]; exact hx))
    · exact hh
    · exact absurd (hh ▸ hchainmem x (mem_members_of_queue c x hx)) h3a
  have hqnd : c.queue.Nodup := by
    unfold Chain.members at hndc
    simp only [List.nodup_cons] at hndc
    exact hndc.2.of_append_right
  have hqeq : c.queue = [2] := all_eq_single _ 2 hqnd hqall hq2
  have hcf : c.fired = false := by
    by_cases hf : c.fired = true
    · exfalso
      cases hr : c.running with
      | none =>
        have := (h3 c hc).2.2.2.2 hf hr
        rw [hqeq] at this
        simp at this
      | some j =>
        have hjm : j ∈ c.members := mem_members_of_running c j hr
        have hja := hchainmem j hjm
        have hj3 : j ≠ 3 := fun he => h3a (he ▸ hja)
        have hj1 : j ≠ 1 := by
          intro he
          unfold Chain.members at hndc
          simp only [List.nodup_cons, hr] at hndc
          exact hndc.1 (by
            rw [List.mem_append]
            exact Or.inl (by rw [ho1, he]; simp))
        have hj2 : j ≠ 2 := by
          intro he
          unfold Chain.members at hndc
          simp only [List.nodup_cons, hr] at hndc
          have := hndc.2
          simp only [List.singleton_append, List.nodup_cons] at this
          exact this.1 (he ▸ hq2)
        rcases harr j hja with hh | hh | hh
        · exact hj1 hh
        · exact hj2 hh
        · exact hj3 hh
    · simpa using hf
  have hrn : c.running = Option.none := (h3 c hc).2.1 hcf
  have hfe : c.firedErr = false := by
    by_cases hf : c.firedErr = true
    · exact absurd ((h3 c hc).2.2.2.1 hf) (by simp [hcf])
    · simpa using hf
  have hlk : stP.callLock = some c.owner := (h3 c hc).2.2.1 hcf
  have hall : ∀ c2 ∈ stP.chains, c2 = c := by
    intro c2 hc2
    have harro := h2 c2.owner (by
      simp only [List.mem_flatMap]
      exact ⟨c2, hc2, owner_mem_members c2⟩)
    rcases harr _ harro with hh | hh | hh
    · exact owner_unique _ h1 hc2 hc (hh.trans ho1.symm)
    · exact mem_two_chains _ h1 hc2 hc 2 (hh ▸ owner_mem_members c2) hmem2
    · exact absurd (hh ▸ harro) h3a
  have hchains : stP.chains = [c] := chains_single _ h1 c hc hall
  rw [hlk] at h
  dsimp only at h
  simp only [Option.some.injEq] at h
  subst h
  refine ⟨⟨?_, ?_, ?_⟩, ?_⟩
  · simp only [List.mem_append]
    exact Or.inl (by rw [← ho1]; exact hown_arr)
  · simp only [List.mem_append]
    exact Or.inl harr2
  · simp [List.mem_append]
  · left
    refine ⟨c.ownerRunning, ?_, ?_, ?_, ?_⟩
    · show List.map (enqueueChain c.owner 3) stP.chains = _
      rw [hchains]
      simp only [List.map_cons, List.map_nil]
      unfold enqueueChain
      rw [if_pos rfl]
      rw [advance_of_not_fired
        { owner := c.owner, ownerRunning := c.ownerRunning, fired := c.fired,
          firedErr := c.firedErr, running := c.running, queue := c.queue ++ [3] } hcf]
      rw [ho1, hcf, hfe, hrn, hqeq]
      rfl
    · exact congrArg some ho1
    · intro hin
      exact h6 2 hin c hc hq2
    · intro hin
      exact h3a (h7 3 hin)

end LbrySpec
namespace LbrySpec

theorem three_step (st st2 : SerState) (ev : Ev) (hph : ThreePhase st)
    (harr : ∀ i, ev = .arrive i → i = 1 ∨ i = 2 ∨ i = 3)
    (h : step st ev = some st2) : ThreePhase st2 := by
  obtain ⟨⟨ha1, ha2, ha3⟩, hph⟩ := hph
  cases ev with
  | arrive i =>
    exfalso
    unfold step at h
    dsimp only at h
    rcases harr i rfl with hi | hi | hi <;> subst hi
    · rw [if_pos ha1] at h; simp at h
    · rw [if_pos ha2] at h; simp at h
    · rw [if_pos ha3] at h; simp at h
  | execEnd i =>
    unfold step at h
    dsimp only at h
    rcases hph with ⟨b, hch, hlk, h2e, h3e⟩ | ⟨fe, hch, h2e, h3e⟩ |
        ⟨fe, hch, h2e, h3e⟩ | ⟨fe, hch, h2e, h3e⟩
    · cases b with
      | false =>
        exfalso
        have hex : st.execSet = [] := by
          unfold SerState.execSet
          rw [hch]
          rfl
        rw [hex] at h
        simp at h
      | true =>
        have hex : st.execSet = [1] := by
          unfold SerState.execSet
          rw [hch]
          rfl
        rw [hex] at h
        split at h
        · rename_i hi
          simp only [List.mem_singleton] at hi
          subst hi
          simp only [Option.some.injEq] at h
          subst h
          refine ⟨⟨ha1, ha2, ha3⟩, ?_⟩
          left
          refine ⟨false, ?_, hlk, ?_, ?_⟩
          · show List.map (chainEnd 1) st.chains = _
            rw [hch]
            rfl
          · intro hm
            rcases List.mem_append.mp hm with hm | hm
            · exact h2e hm
            · simp at hm
          · intro hm
            rcases List.mem_append.mp hm with hm | hm
            · exact h3e hm
            · simp at hm
        · simp at h
    · have hex : st.execSet = [2] := by
        unfold SerState.execSet
        rw [hch]
        rfl
      rw [hex] at h
      split at h
      · rename_i hi
        simp only [List.mem_singleton] at hi
        subst hi
        simp only [Option.some.injEq] at h
        subst h
        refine ⟨⟨ha1, ha2, ha3⟩, ?_⟩
        right; right; left
        refine ⟨fe, ?_, ?_, ?_⟩
        · show List.map (chainEnd 2) st.chains = _
          rw [hch]
          rfl
        · exact List.mem_append.mpr (Or.inr (by simp))
        · intro hm
          rcases List.mem_append.mp hm with hm | hm
          · exact h3e hm
          · simp at hm
      · simp at h
    · have hex : st.execSet = [3] := by
        unfold SerState.execSet
        rw [hch]
        rfl
      rw [hex] at h
      split at h
      · rename_i hi
        simp only [List.mem_singleton] at hi
        subst hi
        simp only [Option.some.injEq] at h
        subst h
        refine ⟨⟨ha1, ha2, ha3⟩, ?_⟩
        right; right; right
        refine ⟨fe, ?_, ?_, ?_⟩
        · show List.map (chainEnd 3) st.chains = _
          rw [hch]
          rfl
        · exact List.mem_append.mpr (Or.inl h2e)
        · exact List.mem_append.mpr (Or.inr (by simp))
      · simp at h
    · exfalso
      have hex : st.execSet = [] := by
        unfold SerState.execSet
        rw [hch]
        rfl
      rw [hex] at h
      simp at h
  | finishOk a =>
    unfold step at h
    dsimp only at h
    cases hfind : List.find? (fun c => c.owner == a) st.chains with
    | none =>
      rw [hfind] at h
      dsimp only at h
      by_cases he : a ∈ st.ended
      · rw [if_pos he] at h
        simp only [Option.some.injEq] at h
        subst h
        exact ⟨⟨ha1, ha2, ha3⟩, hph⟩
      · rw [if_neg he] at h
        simp at h
    | some c =>
      rw [hfind] at h
      dsimp only at h
      have hc : c ∈ st.chains := List.mem_of_find?_eq_some hfind
      have hca : c.owner = a := by
        have := List.find?_some hfind
        simpa using this
      rcases hph with ⟨b, hch, hlk, h2e, h3e⟩ | ⟨fe, hch, h2e, h3e⟩ |
          ⟨fe, hch, h2e, h3e⟩ | ⟨fe, hch, h2e, h3e⟩
      · rw [hch] at hc
        simp only [List.mem_singleton] at hc
        subst hc
        have haa : (1 : ℕ) = a := hca
        subst haa
        cases b with
        | true =>
          exfalso
          rw [if_neg (fun hg => hg.2 rfl)] at h
          simp at h
        | false =>
          rw [if_pos ⟨by decide, by decide⟩] at h
          rw [hlk] at h
          rw [if_pos rfl] at h
          rw [hch] at h
          simp only [Option.some.injEq] at h
          subst h
          refine ⟨⟨ha1, ha2, ha3⟩, ?_⟩
          right; left
          exact ⟨false, rfl, h2e, h3e⟩
      · rw [hch] at hc
        simp only [List.mem_singleton] at hc
        subst hc
        exfalso
        rw [if_neg (fun hg => hg.1 rfl)] at h
        simp at h
      · rw [hch] at hc
        simp only [List.mem_singleton] at hc
        subst hc
        exfalso
        rw [if_neg (fun hg => hg.1 rfl)] at h
        simp at h
      · rw [hch] at hc
        simp only [List.mem_singleton] at hc
        subst hc
        exfalso
        rw [if_neg (fun hg => hg.1 rfl)] at h
        simp at h
  | finishErr a =>
    unfold step at h
    dsimp only at h
    cases hfind : List.find? (fun c => c.owner == a) st.chains with
    | none =>
      rw [hfind] at h
      dsimp only at h
      by_cases he : a ∈ st.ended
      · rw [if_pos he] at h
        simp only [Option.some.injEq] at h
        subst h
        exact ⟨⟨ha1, ha2, ha3⟩, hph⟩
      · rw [if_neg he] at h
        simp at h
    | some c =>
      rw [hfind] at h
      dsimp only at h
      have hc : c ∈ st.chains := List.mem_of_find?_eq_some hfind
      have hca : c.owner = a := by
        have := List.find?_some hfind
        simpa using this
      rcases hph with ⟨b, hch, hlk, h2e, h3e⟩ | ⟨fe, hch, h2e, h3e⟩ |
          ⟨fe, hch, h2e, h3e⟩ | ⟨fe, hch, h2e, h3e⟩
      · rw [hch] at hc
        simp only [List.mem_singleton] at hc
        subst hc
        have haa : (1 : ℕ) = a := hca
        subst haa
        cases b with
        | true =>
          exfalso
          rw [if_neg (fun hg => hg.2 rfl)] at h
          simp at h
        | false =>
          rw [if_pos ⟨by decide, by decide⟩] at h
          rw [hch] at h
          simp only [Option.some.injEq] at h
          subst h
          refine ⟨⟨ha1, ha2, ha3⟩, ?_⟩
          right; left
          exact ⟨true, rfl, h2e, h3e⟩
      · rw [hch] at hc
        simp only [List.mem_singleton] at hc
        subst hc
        exfalso
        rw [if_neg (fun hg => hg.1 rfl)] at h
        simp at h
      · rw [hch] at hc
        simp only [List.mem_singleton] at hc
        subst hc
        exfalso
        rw [if_neg (fun hg => hg.1 rfl)] at h
        simp at h
      · rw [hch] at hc
        simp only [List.mem_singleton] at hc
        subst hc
        exfalso
        rw [if_neg (fun hg => hg.1 rfl)] at h
        simp at h

end LbrySpec
namespace LbrySpec

theorem three_fold (post : List Ev) :
    ∀ (s0 st : SerState), ThreePhase s0 →
    (∀ i, Ev.arrive i ∈ post → i = 1 ∨ i = 2 ∨ i = 3) →
    List.foldlM step s0 post = some st → ThreePhase st := by
  induction post with
  | nil =>
    intro s0 st h0 _ h
    simp only [List.foldlM_nil, Option.pure_def, Option.some.injEq] at h
    subst h
    exact h0
  | cons e rest ih =>
    intro s0 st h0 harr h
    rw [List.foldlM_cons] at h
    cases hs : step s0 e with
    | none => rw [hs] at h; simp at h
    | some s1 =>
      rw [hs] at h
      exact ih s1 st
        (three_step s0 s1 e h0
          (fun i hie => harr i (by subst hie; exact List.mem_cons_self _ _)) hs)
        (fun i hie => harr i (List.mem_cons_of_mem e hie)) h

theorem three_conclusion (st : SerState) (hph : ThreePhase st) (h3 : 3 ∈ st.execSet) :
    2 ∈ st.ended := by
  obtain ⟨_, hph⟩ := hph
  unfold SerState.execSet at h3
  rcases hph with ⟨b, hch, _, _, _⟩ | ⟨fe, hch, _, _⟩ | ⟨fe, hch, h2e, _⟩ | ⟨fe, hch, h2e, _⟩
  · rw [hch] at h3
    cases b <;> simp [Chain.execs] at h3
  · rw [hch] at h3
    simp [Chain.execs] at h3
  · exact h2e
  · rw [hch] at h3
    simp [Chain.execs] at h3

/-- C1 (amended): the serializer keeps the two back-to-back invocations 1
and 2 from ever executing concurrently (first conjunct: in any schedule
whose arrivals are only requests 1 and 2, the reachable states never have
both in the executing set), and a third invocation arriving while the
second is still waiting in the lock owner's queue runs strictly after the
second's execution has ended (second conjunct).  The unamended claim -
at most one invocation executing at any time over arbitrary schedules -
fails: see the overlap counterexample, where removing the lock-table
entry when the first request's completion deferred fires lets a fresh
arrival overlap the still-executing dequeued second request. -/
theorem serializer_serialization (evs pre post : List Ev) (st stP : SerState) :
    (runSer evs = some st → (∀ i, Ev.arrive i ∈ evs → i = 1 ∨ i = 2) →
      ¬(1 ∈ st.execSet ∧ 2 ∈ st.execSet))
    ∧ (runSer pre = some stP → (∃ c, c ∈ stP.chains ∧ 2 ∈ c.queue) →
      (∀ i, Ev.arrive i ∈ pre ++ Ev.arrive 3 :: post → i = 1 ∨ i = 2 ∨ i = 3) →
      ∀ st2, runSer (pre ++ Ev.arrive 3 :: post) = some st2 →
      3 ∈ st2.execSet → 2 ∈ st2.ended) := by
  constructor
  · intro hrun harr
    exact no_two_exec st (runSer_inv evs st hrun)
      (fun x hx => harr x (runSer_arrived evs st hrun x hx))
  · intro hrunP hwait harr st2 hrun2 hexec3
    have hInvP := runSer_inv pre stP hrunP
    have harrP : ∀ x ∈ stP.arrived, x = 1 ∨ x = 2 ∨ x = 3 := fun x hx =>
      harr x (List.mem_append.mpr (Or.inl (runSer_arrived pre stP hrunP x hx)))
    unfold runSer at hrun2 hrunP
    rw [List.foldlM_append, hrunP] at hrun2
    have hrun3 : List.foldlM step stP (Ev.arrive 3 :: post) = some st2 := hrun2
    rw [List.foldlM_cons] at hrun3
    cases hsD : step stP (Ev.arrive 3) with
    | none =>
      rw [hsD] at hrun3
      simp at hrun3
    | some stD =>
      rw [hsD] at hrun3
      have hphD := three_establish stP stD hInvP harrP hwait hsD
      exact three_conclusion st2
        (three_fold post stD st2 hphD
          (fun i hie =>
            harr i (List.mem_append.mpr (Or.inr (List.mem_cons_of_mem _ hie))))
          hrun3) hexec3

/-- Witness for C1: both conjuncts applied at concrete schedules.  For
mutual exclusion, after arrive 1, arrive 2, execEnd 1 the executing set
holds neither 1 nor 2 together; for the ordering conjunct, running
execEnd 1, finishOk 1, execEnd 2 after request 3 queues behind request 2
reaches the phase where 3 executes and 2 has ended. -/
theorem serializer_serialization_w :
    (¬(1 ∈ (⟨some 1, [⟨1, false, false, false, Option.none, [2]⟩], [1, 2], [1]⟩
        : SerState).execSet
      ∧ 2 ∈ (⟨some 1, [⟨1, false, false, false, Option.none, [2]⟩], [1, 2], [1]⟩
        : SerState).execSet))
    ∧ 2 ∈ (⟨Option.none, [⟨1, false, true, false, some 3, []⟩], [1, 2, 3], [1, 2]⟩
        : SerState).ended := by
  constructor
  · exact (serializer_serialization [Ev.arrive 1, Ev.arrive 2, Ev.execEnd 1]
      [] [] (⟨some 1, [⟨1, false, false, false, Option.none, [2]⟩], [1, 2], [1]⟩)
      initSer).1 (by decide) (by intro i hi; simpa using hi)
  · exact (serializer_serialization []
      [Ev.arrive 1, Ev.arrive 2]
      [Ev.execEnd 1, Ev.finishOk 1, Ev.execEnd 2]
      initSer
      (⟨some 1, [⟨1, true, false, false, Option.none, [2]⟩], [1, 2], []⟩)).2
      (by decide)
      ⟨⟨1, true, false, false, Option.none, [2]⟩, by decide, by decide⟩
      (by intro i hi; simpa using hi)
      (⟨Option.none, [⟨1, false, true, false, some 3, []⟩], [1, 2, 3], [1, 2]⟩)
      (by decide) (by decide)

/-- C1 (counterexample): request 1 arrives, executes, and its completion
deferred fires (removing the lock-table entry and dequeuing request 2);
request 3 then arrives, finds no lock, and starts immediately - the model
reaches a state whose executing set is exactly {2, 3}, so two invocations
of the serialized name execute concurrently, refuting the claim's "at
most one invocation of the name executes at a time" over all schedules. -/
theorem serializer_overlap_counterexample :
    (runSer [Ev.arrive 1, Ev.arrive 2, Ev.execEnd 1, Ev.finishOk 1,
      Ev.arrive 3]).map SerState.execSet = some [2, 3] := by decide

/-- C4 (amended): when a request arrives for the serialized name and no
lock-table entry exists, an entry keyed by that request's completion
deferred is created (first conjunct); the entry is removed when the
completion deferred fires *successfully* (second conjunct: after a
successful firing the lock never points at the firing owner).  The
unamended claim - removal whether it fires successfully or with an error
- fails: `_del_lock` is attached with `addCallback` only, so the errback
path keeps the entry (see the retained-lock counterexample). -/
theorem lock_create_and_success_removal :
    (∀ st st2 i, st.callLock = Option.none → step st (Ev.arrive i) = some st2 →
      st2.callLock = some i)
    ∧ (∀ evs st st2 a, runSer evs = some st → step st (Ev.finishOk a) = some st2 →
      st2.callLock ≠ some a) := by
  constructor
  · intro st st2 i hlk h
    unfold step at h
    dsimp only at h
    split at h
    · simp at h
    · rw [hlk] at h
      dsimp only at h
      simp only [Option.some.injEq] at h
      subst h
      rfl
  · intro evs st st2 a hrun h
    obtain ⟨h1, h2, h3, h4, h5, h6, h7⟩ := runSer_inv evs st hrun
    unfold step at h
    dsimp only at h
    cases hfind : List.find? (fun c => c.owner == a) st.chains with
    | none =>
      rw [hfind] at h
      dsimp only at h
      by_cases he : a ∈ st.ended
      · rw [if_pos he] at h
        simp only [Option.some.injEq] at h
        subst h
        intro hlk
        obtain ⟨c, hc, hco⟩ := h4 a hlk
        have := (List.find?_eq_none.mp hfind) c hc
        simp [hco] at this
      · rw [if_neg he] at h
        simp at h
    | some c =>
      rw [hfind] at h
      dsimp only at h
      split at h
      · simp only [Option.some.injEq] at h
        subst h
        show (if st.callLock = some a then Option.none else st.callLock) ≠ some a
        by_cases hl : st.callLock = some a
        · rw [if_pos hl]
          simp
        · rw [if_neg hl]
          exact hl
      · simp at h

/-- Witness for C4: request 1 arriving at the initial state installs
`callLock = some 1`, and after arrive 1, execEnd 1 a successful firing
of 1's completion deferred leaves the lock pointing away from 1. -/
theorem lock_create_and_success_removal_w :
    (⟨some 1, [newChain 1], [1], ([] : List ℕ)⟩ : SerState).callLock = some 1
    ∧ (⟨Option.none, [⟨1, false, true, false, Option.none, []⟩], [1], [1]⟩
        : SerState).callLock ≠ some 1 := by
  constructor
  · exact lock_create_and_success_removal.1 initSer
      (⟨some 1, [newChain 1], [1], []⟩) 1 rfl (by decide)
  · exact lock_create_and_success_removal.2 [Ev.arrive 1, Ev.execEnd 1]
      (⟨some 1, [⟨1, false, false, false, Option.none, []⟩], [1], [1]⟩)
      (⟨Option.none, [⟨1, false, true, false, Option.none, []⟩], [1], [1]⟩)
      1 (by decide) (by decide)

/-- C4 (counterexample): request 1 arrives, executes, and its completion
deferred fires with an error; because `_del_lock` is attached only as a
callback (never as an errback), the lock-table entry `callLock = some 1`
survives even though request 1's lifecycle has fully completed, refuting
the claim that the table never retains an entry for a completed request. -/
theorem lock_retained_on_error_counterexample :
    runSer [Ev.arrive 1, Ev.execEnd 1, Ev.finishErr 1]
      = some ⟨some 1, [⟨1, false, true, true, Option.none, []⟩], [1], [1]⟩ := by decide

end LbrySpec
